import Mathlib

/-!
# The falling-block game engine of `src/main.c`

A shallow embedding of the game state (`struct Tetris`) and of the functions
`get_piece_coords`, `try_move`, `glue`, the game block of `SDL_AppIterate`,
the key-down handling of `SDL_AppEvent` and the piece lookup of `Render`.

Conventions of the embedding:

* `Uint8`, `Uint32` and `Uint64` fields are natural numbers; every store into
  such a field reduces the stored value modulo `2^8`, `2^32` or `2^64`.
* C `int` values are integers; the callers only pass `dx`, `dy`, `drot` of
  absolute value at most 2 next to `Uint8` fields, so no `int` overflows.
* An access the C language leaves undefined (a table or board index outside
  the array) and the failing `SDL_assert_always` of `get_piece_coords` make
  the modelled function return `none`.
* The shift `1000000000 >> (lines / 10)` is the shift of the natural numbers
  (`gravity_period`); C defines it for `lines / 10 < 32`, and every statement
  on its value carries that bound.
-/

namespace SdlTetris

/-- The game state, `struct Tetris` of `src/main.c`, field by field. -/
structure Tetris where
  prev_ns : Nat
  drop_timer : Nat
  score : Nat
  lines : Nat
  board : List Nat
  rot : Nat
  x : Nat
  y : Nat
  piece : Nat
  input_rot : Nat
  input_down : Nat
  input_left : Nat
  input_right : Nat
  input_drop : Nat
deriving DecidableEq

/-- Conversion of a C `int` to `Uint8`: the residue modulo 256. -/
def to_u8 (i : Int) : Nat := (i % 256).toNat

/-- The C array read `a[i]` with a signed index; `none` outside the array. -/
def at_index {α : Type} (a : List α) (i : Int) : Option α :=
  if 0 ≤ i then a.get? i.toNat else none

/-- The table `xs` of `get_piece_coords`: three column offsets per kind,
in the order L, J, S, Z, T, O, I. -/
def xs : List Int :=
  [-1, -1, 1,  -1, 1, 1,  -1, 0, 1,  -1, 0, -1,  -1, 0, 1,  -1, -1, 0,  -2, -1, 1]

/-- The table `ys` of `get_piece_coords`: three row offsets per kind. -/
def ys : List Int :=
  [-1, 0, 0,  0, 0, -1,  -1, -1, 0,  0, -1, -1,  0, -1, 0,  -1, 0, -1,  0, 0, 0]

/-- The function `get_piece_coords`: the four cells `(xs_out[i], ys_out[i])`,
`i = 0..3`, of a piece of kind `piece` with pivot `(x, y)` and rotation `rot`.
`none` when a table read is out of range or when the `default` branch of the
`switch` (the assertion `rot < 4`) is reached. -/
def get_piece_coords (piece : Nat) (x y : Int) (rot : Nat) : Option (List (Int × Int)) :=
  let o : Int := ((piece : Int) - 1) * 3
  match at_index xs (o + 0), at_index xs (o + 1), at_index xs (o + 2),
        at_index ys (o + 0), at_index ys (o + 1), at_index ys (o + 2) with
  | some x0, some x1, some x2, some y0, some y1, some y2 =>
    match rot with
    | 0 => some [(x + x0, y + y0), (x + x1, y + y1), (x + x2, y + y2), (x, y)]
    | 1 => some [(x + y0, y - x0), (x + y1, y - x1), (x + y2, y - x2), (x, y)]
    | 2 => some [(x - x0, y - y0), (x - x1, y - y1), (x - x2, y - y2), (x, y)]
    | 3 => some [(x - y0, y + x0), (x - y1, y + x1), (x - y2, y + x2), (x, y)]
    | _ => none
  | _, _, _, _, _, _ => none

/-- The table `rots` of `try_move`: the number of rotations of each kind, in
the order L, J, S, Z, T, O, I. -/
def rots : List Int := [4, 4, 2, 2, 4, 1, 2]

/-- One disjunct group of the condition of `try_move`: the cell `(cx, cy)` is
outside the 10x22 grid or the board holds a non-zero value there. The board
is read only after the four range tests, as in the short-circuit chain. -/
def blocked (board : List Nat) (cx cy : Int) : Bool :=
  decide (cx < 0) || decide (cx ≥ 10) || decide (cy < 0) || decide (cy ≥ 22) ||
    decide (board.getD (cx + cy * 10).toNat 0 ≠ 0)

/-- The function `try_move`: the returned flag and the state after the call.
`none` when `rots[piece - 1]` is read out of range or `get_piece_coords`
fails. -/
def try_move (t : Tetris) (dx dy drot : Int) : Option (Bool × Tetris) :=
  let x : Int := (t.x : Int) + dx
  let y : Int := (t.y : Int) + dy
  match at_index rots ((t.piece : Int) - 1) with
  | none => none
  | some n =>
    let rot : Int := Int.tmod ((t.rot : Int) + drot + 4) n
    match get_piece_coords t.piece x y (to_u8 rot) with
    | none => none
    | some cells =>
      if cells.any (fun c => blocked t.board c.1 c.2) then some (false, t)
      else some (true, { t with x := to_u8 x, y := to_u8 y, rot := to_u8 rot })

/-- The store `board[i] = v` of `glue` with a signed index; `none` when the
index is outside the 220 cells of the board. -/
def board_store (board : List Nat) (i : Int) (v : Nat) : Option (List Nat) :=
  if 0 ≤ i ∧ i < 220 then some (board.set i.toNat v) else none

/-- The body of the inner loop of `glue` for column `x` of row `y`: the pair
is the board and `count`. The row index `y - cleared` is never negative
because `cleared` counts rows below `y` (`sweep_cleared_le`). -/
def sweep_cell (y cleared : Nat) (s : List Nat × Nat) (x : Nat) : List Nat × Nat :=
  let old := s.1.getD (x + y * 10) 0
  let count := s.2 + (if old ≠ 0 then 1 else 0)
  let board := s.1.set (x + y * 10) 0
  let board := board.set (x + (y - cleared) * 10) old
  (board, count)

/-- One iteration of the outer loop of `glue`, for row `y`: the pair is the
board and `cleared`. -/
def sweep_row (s : List Nat × Nat) (y : Nat) : List Nat × Nat :=
  let r := (List.range 10).foldl (sweep_cell y s.2) (s.1, 0)
  (r.1, s.2 + (if r.2 = 10 then 1 else 0))

/-- The line-clear loop of `glue` (`for (int y = 0; y < 22; ++y)`): the board
after the loop and the final value of `cleared`. -/
def sweep (board : List Nat) : List Nat × Nat :=
  (List.range 22).foldl sweep_row (board, 0)

/-- The first part of `glue`: the board after the four stores
`board[xs[i] + ys[i] * 10] = piece`. `none` when `get_piece_coords` fails or
a store is out of range. -/
def write_piece (t : Tetris) : Option (List Nat) :=
  match get_piece_coords t.piece t.x t.y t.rot with
  | none => none
  | some cells => cells.foldlM (fun b c => board_store b (c.1 + c.2 * 10) t.piece) t.board

/-- The function `glue`: the four stores, the next piece at the spawn
position, the line-clear loop, the score and lines update and the spawn
test. -/
def glue (t : Tetris) : Option Tetris :=
  match write_piece t with
  | none => none
  | some written =>
    let swept := sweep written
    let cleared := swept.2
    let t1 : Tetris :=
      { t with
        board := swept.1
        piece := t.piece % 7 + 1
        x := 5
        y := 20
        rot := 0
        score := (t.score + ((t.lines / 10 + 1) <<< cleared) % 2 ^ 32) % 2 ^ 32
        lines := (t.lines + cleared) % 2 ^ 32 }
    match try_move t1 0 0 0 with
    | none => none
    | some (true, t2) => some t2
    | some (false, t2) => some { t2 with piece := 0 }

/-- The state after `SDL_memset(tetris, 0, sizeof(Tetris))` and the three
assignments of `SDL_AppIterate`. -/
def reset_state : Tetris :=
  { prev_ns := 0, drop_timer := 0, score := 0, lines := 0, board := List.replicate 220 0,
    rot := 0, x := 5, y := 21, piece := 1,
    input_rot := 0, input_down := 0, input_left := 0, input_right := 0, input_drop := 0 }

/-- The gravity period `1000000000 >> (lines / 10)` for `lines / 10 < 32`,
the shift counts for which C defines the shift of the 32-bit constant; there
it is the shift of the natural numbers. For `lines / 10 ≥ 32` the C
expression has no defined value, and the value of this definition (0) stands
for none: the theorems on the period and on the amount added to `drop_timer`
are stated for `lines / 10 < 32`. -/
def gravity_period (lines : Nat) : Nat := 1000000000 >>> (lines / 10)

/-- The statement `tetris->drop_timer += 1000000000 >> (tetris->lines / 10)`
on the `Uint64` timer. -/
def add_period (t : Tetris) : Tetris :=
  { t with drop_timer := (t.drop_timer + gravity_period t.lines) % 2 ^ 64 }

/-- The game block of `SDL_AppIterate` (the reset of a finished game and the
gravity tick) for the clock reading `now = SDL_GetTicksNS()`, a `Uint64`;
`dt` is the `Uint64` difference `now - prev_ns`. -/
def SDL_AppIterate (t0 : Tetris) (now : Nat) : Option Tetris :=
  let t := if t0.piece = 0 then reset_state else t0
  let dt := (now + 2 ^ 64 - t.prev_ns) % 2 ^ 64
  let t := { t with prev_ns := now }
  if t.drop_timer > dt then some { t with drop_timer := t.drop_timer - dt }
  else
    match try_move t 0 (-1) 0 with
    | none => none
    | some (true, t1) => some (add_period t1)
    | some (false, t1) => (glue t1).map add_period

/-- One operand `|| try_move(tetris, dx, dy, drot)` of a short-circuit chain:
evaluated only when the chain is still false. -/
def or_try_move (r : Option (Bool × Tetris)) (dx dy drot : Int) : Option (Bool × Tetris) :=
  match r with
  | none => none
  | some (true, t) => some (true, t)
  | some (false, t) => try_move t dx dy drot

/-- The block `if (rot) { ... }` of `SDL_AppEvent`: the rotate command. -/
def rotate_command (t : Tetris) : Option Tetris :=
  let i_nudge : Bool := t.x == 0 && t.piece == 8
  let d : Int := 1
  let r := try_move t 0 0 d
  let r := or_try_move r (-1) 0 d
  let r := or_try_move r 1 0 d
  let r := if i_nudge then or_try_move r 2 0 d else r
  let r := or_try_move r 0 (-1) d
  let r := or_try_move r 0 1 d
  r.map Prod.snd

/-- Row `y` of the board: its 10 column values, column 0 first. -/
def board_row (board : List Nat) (y : Nat) : List Nat :=
  (List.range 10).map (fun x => board.getD (x + y * 10) 0)

/-- The 22 rows of the board, row 0 (the bottom row) first. -/
def board_rows (board : List Nat) : List (List Nat) :=
  (List.range 22).map (board_row board)

/-- A row is full when all its columns are non-zero. -/
def is_full (row : List Nat) : Bool := row.all (fun v => v != 0)

/-- Row `y` of the board is full. -/
def row_full (board : List Nat) (y : Nat) : Bool := is_full (board_row board y)

/-- The number of full rows among the 22 rows of the board. -/
def full_rows (board : List Nat) : Nat :=
  ((board_rows board).filter is_full).length

/-- The empty row: 10 zero cells. -/
def empty_row : List Nat := List.replicate 10 0

/-- Removes the lowest full row of a list of rows (bottom row first), so that
the rows above it fall by one; `none` when no row is full. -/
def remove_lowest_full : List (List Nat) → Option (List (List Nat))
  | [] => none
  | r :: rs => if is_full r then some rs else (remove_lowest_full rs).map (fun l => r :: l)

/-- Clears full rows one at a time from the bottom, as the spec words it:
each round removes the lowest full row, lets the rows above fall and adds an
empty row at the top; at most `fuel` rounds. -/
def clear_one_at_a_time : Nat → List (List Nat) → List (List Nat)
  | 0, rows => rows
  | fuel + 1, rows =>
    match remove_lowest_full rows with
    | none => rows
    | some rest => clear_one_at_a_time fuel (rest ++ [empty_row])

/-- The active piece is legally placed: its four cells exist, lie inside the
grid and on empty board cells. -/
def legally_placed (t : Tetris) : Bool :=
  match get_piece_coords t.piece t.x t.y t.rot with
  | none => false
  | some cells => cells.all (fun c => !blocked t.board c.1 c.2)

/-- The five candidates `(dx, dy)` of the rotate command that do not depend
on `i_nudge`, in their fixed order. -/
def kick_candidates : List (Int × Int) := [(0, 0), (-1, 0), (1, 0), (0, -1), (0, 1)]

/-- The state the candidate `c` yields from `t` when it is legal there (with
rotation change +1), `none` when it is not. -/
def candidate_result (t : Tetris) (c : Int × Int) : Option Tetris :=
  match try_move t c.1 c.2 1 with
  | some (true, s) => some s
  | _ => none

/-- The result of the first legal candidate of `kick_candidates` from `t`, or
`t` itself when none of the five is legal. -/
def first_legal_candidate (t : Tetris) : Tetris :=
  (kick_candidates.findSome? (candidate_result t)).getD t

/-- The stored offset number `i` (0, 1 or 2) of kind `piece`: the table
entries `xs[(piece - 1) * 3 + i]` and `ys[(piece - 1) * 3 + i]`. -/
def stored_offset (piece i : Nat) : Int × Int :=
  (xs.getD ((piece - 1) * 3 + i) 0, ys.getD ((piece - 1) * 3 + i) 0)

/-- The quarter turn of the cell `c` about the pivot `p`, as the spec words
rotation 1: the offset `(dx, dy)` of `c` from `p` becomes `(dy, -dx)`. -/
def quarter_turn (p c : Int × Int) : Int × Int :=
  (p.1 + (c.2 - p.2), p.2 - (c.1 - p.1))

/-- A sample state: the T piece (kind 5) in the middle of the empty board. -/
def mid_state : Tetris := { reset_state with piece := 5, x := 4, y := 10, rot := 1 }

/-- A sample state: the I piece (kind 7) upright in column 0 of the empty
board, pivot `(0, 10)`, rotation 1. -/
def wall_state : Tetris := { reset_state with piece := 7, x := 0, y := 10, rot := 1 }

/-- A sample state: row 0 holds six cells in columns 4 to 9 and the I piece
lies on the floor in columns 0 to 3, so that locking it completes row 0. -/
def floor_state : Tetris :=
  { reset_state with
    piece := 7
    x := 2
    y := 0
    board := [0, 0, 0, 0, 1, 1, 1, 1, 1, 1] ++ List.replicate 210 0 }

/-- A sample board: rows 0 to 20 hold nine cells each (column 9 is empty)
and row 21, the top row, is full. -/
def top_full_board : List Nat :=
  (List.replicate 21 [1, 1, 1, 1, 1, 1, 1, 1, 1, 0]).flatten ++ List.replicate 10 1

/-- The keys `SDL_AppEvent` tells apart in a key-down event: the five keys of
the game and any other key. -/
inductive Key where
  | up
  | down
  | left
  | right
  | space
  | other
deriving DecidableEq

/-- The loop `while (drop && try_move(tetris, 0, -1, 0)) {}` of `SDL_AppEvent`
for `drop = 1`, with `fuel` bounding the number of calls of `try_move`: `none`
when a call fails to return or the fuel runs out before a call returns 0. -/
def drop_loop : Nat → Tetris → Option Tetris
  | 0, _ => none
  | fuel + 1, t =>
    match try_move t 0 (-1) 0 with
    | none => none
    | some (true, t1) => drop_loop fuel t1
    | some (false, t1) => some t1

/-- The block `if (drop || down) { ... }` of `SDL_AppEvent`. The pivot row is
a `Uint8` and every successful step lowers it by one, so 256 calls are enough
for the loop (`drop_loop_spec`). -/
def drop_block (t : Tetris) (drop down : Bool) : Option Tetris :=
  match (if drop then drop_loop 256 t else some t) with
  | none => none
  | some t1 =>
    if drop then (glue t1).map add_period
    else if down then
      match try_move t1 0 (-1) 0 with
      | none => none
      | some (true, t2) => some (add_period t2)
      | some (false, t2) => (glue t2).map add_period
    else some (add_period t1)

/-- The function `SDL_AppEvent` for a key-down event with key `key`: the
game state after the event. -/
def SDL_AppEvent (t : Tetris) (key : Key) : Option Tetris :=
  let rot : Bool := key == Key.up
  let down : Bool := key == Key.down
  let left : Bool := key == Key.left
  let right : Bool := key == Key.right
  let drop : Bool := key == Key.space
  match (if left then (try_move t (-1) 0 0).map Prod.snd else some t) with
  | none => none
  | some t1 =>
    match (if right then (try_move t1 1 0 0).map Prod.snd else some t1) with
    | none => none
    | some t2 =>
      match (if rot then rotate_command t2 else some t2) with
      | none => none
      | some t3 => if drop || down then drop_block t3 drop down else some t3

/-- The call `get_piece_coords(tetris->piece, tetris->x, tetris->y,
tetris->rot, piece_xs, piece_ys)` of `Render`, which `SDL_AppIterate` runs
after its game block. -/
def Render (t : Tetris) : Option (List (Int × Int)) :=
  get_piece_coords t.piece t.x t.y t.rot

/-- The candidate rotation of `try_move`:
`(tetris->rot + drot + 4) % rots[tetris->piece - 1]` with the truncating `%`
of C. -/
def candidate_rot (piece rot : Nat) (drot : Int) : Option Int :=
  match at_index rots ((piece : Int) - 1) with
  | none => none
  | some n => some (Int.tmod ((rot : Int) + drot + 4) n)

/-- A call the driver makes: a frame (`SDL_AppIterate` at the clock reading
`now`) or a key-down event. -/
inductive Command where
  | tick (now : Nat)
  | key (k : Key)

/-- The game state after one call of the driver. -/
def step (t : Tetris) : Command → Option Tetris
  | Command.tick now => SDL_AppIterate t now
  | Command.key k => SDL_AppEvent t k

/-- The game state after a sequence of calls of the driver. -/
def run : Tetris → List Command → Option Tetris
  | t, [] => some t
  | t, c :: cs =>
    match step t c with
    | none => none
    | some t1 => run t1 cs

/-- The rows 0 to 20 of the board that eleven hard drops from `reset_state`
build, bottom row first: the pieces L, J, S, Z, T, O, I, L, J, S, Z stacked
in the middle columns. -/
def stack_rows : List (List Nat) :=
  [[0, 0, 0, 0, 1, 0, 0, 0, 0, 0], [0, 0, 0, 0, 1, 1, 1, 0, 0, 0],
   [0, 0, 0, 0, 0, 0, 2, 0, 0, 0], [0, 0, 0, 0, 2, 2, 2, 0, 0, 0],
   [0, 0, 0, 0, 3, 3, 0, 0, 0, 0], [0, 0, 0, 0, 0, 3, 3, 0, 0, 0],
   [0, 0, 0, 0, 4, 4, 0, 0, 0, 0], [0, 0, 0, 0, 4, 4, 0, 0, 0, 0],
   [0, 0, 0, 0, 0, 5, 0, 0, 0, 0], [0, 0, 0, 0, 5, 5, 5, 0, 0, 0],
   [0, 0, 0, 0, 6, 6, 0, 0, 0, 0], [0, 0, 0, 0, 6, 6, 0, 0, 0, 0],
   [0, 0, 0, 7, 7, 7, 7, 0, 0, 0],
   [0, 0, 0, 0, 1, 0, 0, 0, 0, 0], [0, 0, 0, 0, 1, 1, 1, 0, 0, 0],
   [0, 0, 0, 0, 0, 0, 2, 0, 0, 0], [0, 0, 0, 0, 2, 2, 2, 0, 0, 0],
   [0, 0, 0, 0, 3, 3, 0, 0, 0, 0], [0, 0, 0, 0, 0, 3, 3, 0, 0, 0],
   [0, 0, 0, 0, 4, 4, 0, 0, 0, 0], [0, 0, 0, 0, 4, 4, 0, 0, 0, 0]]

/-- The board whose rows below `h` are those of `stack_rows` and whose other
rows are empty. -/
def stack_board (h : Nat) : List Nat :=
  (stack_rows.take h).flatten ++ List.replicate (220 - 10 * h) 0

/-- The state with `n` pieces locked on a stack of `h` rows and the piece of
kind `piece` at the spawn position, as `n` hard drops from `reset_state`
leave it. -/
def stack_state (n h piece : Nat) : Tetris :=
  { reset_state with
    board := stack_board h
    piece := piece
    x := 5
    y := 20
    score := n
    drop_timer := n * 1000000000 }

/-- The rotation index of the state is below the rotation count of its
kind, `rot < rots[piece - 1]`. -/
def rot_valid (t : Tetris) : Bool :=
  match at_index rots ((t.piece : Int) - 1) with
  | none => false
  | some n => decide ((t.rot : Int) < n)

/-- The states reachable from `reset_state` by frames (at any clock reading)
and by key-down events issued while an active piece exists. -/
inductive Reachable : Tetris → Prop where
  | reset : Reachable reset_state
  | tick (t t1 : Tetris) (now : Nat) :
      Reachable t → SDL_AppIterate t now = some t1 → Reachable t1
  | input (t t1 : Tetris) (k : Key) :
      Reachable t → t.piece ≠ 0 → SDL_AppEvent t k = some t1 → Reachable t1

/-- The invariant of the reachable states: a board of 220 cells with values
in 0..7 and, when a piece is active, a legal placement with a
valid rotation index. -/
def invariant (t : Tetris) : Prop :=
  t.board.length = 220 ∧ (∀ i, t.board.getD i 0 ≤ 7) ∧
    (t.piece ≠ 0 → legally_placed t = true ∧ rot_valid t = true)

/-! ## Table lookups and `try_move` -/

theorem rots_lookup (p : Nat) (h1 : 1 ≤ p) (h7 : p ≤ 7) :
    ∃ n : Int, at_index rots ((p : Int) - 1) = some n ∧ 1 ≤ n ∧ n ≤ 4 ∧ 4 % n = 0 := by
  interval_cases p <;> exact ⟨_, rfl, by decide, by decide, by decide⟩

theorem coords_defined (p : Nat) (h1 : 1 ≤ p) (h7 : p ≤ 7) (x y : Int) (r : Nat) (hr : r < 4) :
    ∃ c0 c1 c2, get_piece_coords p x y r = some [c0, c1, c2, (x, y)] := by
  interval_cases p <;> interval_cases r <;> exact ⟨_, _, _, rfl⟩

theorem to_u8_tmod (a n : Int) (ha : 0 ≤ a) (h1 : 1 ≤ n) (h4 : n ≤ 4) :
    to_u8 (Int.tmod a n) = (a % n).toNat ∧ (a % n).toNat < 4 ∧ ((a % n).toNat : Int) = a % n := by
  rw [Int.tmod_eq_emod ha (by omega)]
  have h0 : 0 ≤ a % n := Int.emod_nonneg _ (by omega)
  have hlt : a % n < n := Int.emod_lt_of_pos _ (by omega)
  unfold to_u8
  refine ⟨?_, by omega, by omega⟩
  rw [Int.emod_eq_of_lt h0 (by omega)]

theorem blocked_false_iff (b : List Nat) (cx cy : Int) :
    blocked b cx cy = false ↔
      (0 ≤ cx ∧ cx < 10) ∧ (0 ≤ cy ∧ cy < 22) ∧ b.getD (cx + cy * 10).toNat 0 = 0 := by
  unfold blocked
  simp only [Bool.or_eq_false_iff, decide_eq_false_iff_not, not_lt, not_le, ge_iff_le, ne_eq,
    not_not]
  tauto

theorem try_move_cases (t : Tetris) (dx dy drot : Int) (r : Bool × Tetris)
    (h : try_move t dx dy drot = some r) :
    r = (false, t) ∨ ∃ x y rot, r = (true, { t with x := x, y := y, rot := rot }) := by
  unfold try_move at h
  split at h
  · exact absurd h (by simp)
  · dsimp only at h
    split at h
    · exact absurd h (by simp)
    · split at h
      · exact Or.inl (Option.some.inj h).symm
      · exact Or.inr ⟨_, _, _, (Option.some.inj h).symm⟩

theorem try_move_defined (t : Tetris) (dx dy drot : Int)
    (h1 : 1 ≤ t.piece) (h7 : t.piece ≤ 7) (ha : 0 ≤ (t.rot : Int) + drot + 4) :
    ∃ r, try_move t dx dy drot = some r := by
  obtain ⟨n, hn, hn1, hn4, -⟩ := rots_lookup t.piece h1 h7
  obtain ⟨hu, hlt, -⟩ := to_u8_tmod _ n ha hn1 hn4
  obtain ⟨c0, c1, c2, hc⟩ := coords_defined t.piece h1 h7 (t.x + dx) (t.y + dy) _ hlt
  simp only [try_move, hn, hu, hc]
  split <;> exact ⟨_, rfl⟩

theorem quarter_turn_four_times (p : Int × Int) :
    (List.map (quarter_turn p))^[4] = id := by
  funext l
  have hc : ∀ c ∈ l,
      (quarter_turn p ∘ quarter_turn p ∘ quarter_turn p ∘ quarter_turn p) c = id c := by
    intro c _
    apply Prod.ext
    · simp only [Function.comp_apply, quarter_turn, id]
      omega
    · simp only [Function.comp_apply, quarter_turn, id]
      omega
  simp only [Function.iterate_succ, Function.iterate_zero, Function.comp_apply, id,
    List.map_map]
  rw [List.map_congr_left hc, List.map_id]

/-- Claim C3: for every kind 1..7 with stored offsets `(dx_i, dy_i)`, every
integer pivot `(x, y)` and every rotation 0..3, `get_piece_coords` returns as
cells 0..2 the pivot plus `(dx_i, dy_i)` for rotation 0, plus `(dy_i, -dx_i)`
for rotation 1, plus `(-dx_i, -dy_i)` for rotation 2, plus `(-dy_i, dx_i)` for
rotation 3, and the pivot itself as cell 3; rotation `r` is the quarter turn
about the pivot applied `r` times to the cells of rotation 0, and four
quarter turns map the cells of every rotation to themselves. -/
theorem get_piece_coords_rotations (piece : Nat) (h1 : 1 ≤ piece) (h7 : piece ≤ 7)
    (x y : Int) :
    get_piece_coords piece x y 0
        = some [(x + (stored_offset piece 0).1, y + (stored_offset piece 0).2),
            (x + (stored_offset piece 1).1, y + (stored_offset piece 1).2),
            (x + (stored_offset piece 2).1, y + (stored_offset piece 2).2), (x, y)] ∧
    get_piece_coords piece x y 1
        = some [(x + (stored_offset piece 0).2, y - (stored_offset piece 0).1),
            (x + (stored_offset piece 1).2, y - (stored_offset piece 1).1),
            (x + (stored_offset piece 2).2, y - (stored_offset piece 2).1), (x, y)] ∧
    get_piece_coords piece x y 2
        = some [(x - (stored_offset piece 0).1, y - (stored_offset piece 0).2),
            (x - (stored_offset piece 1).1, y - (stored_offset piece 1).2),
            (x - (stored_offset piece 2).1, y - (stored_offset piece 2).2), (x, y)] ∧
    get_piece_coords piece x y 3
        = some [(x - (stored_offset piece 0).2, y + (stored_offset piece 0).1),
            (x - (stored_offset piece 1).2, y + (stored_offset piece 1).1),
            (x - (stored_offset piece 2).2, y + (stored_offset piece 2).1), (x, y)] ∧
    (∀ r, r < 4 → get_piece_coords piece x y r
        = (get_piece_coords piece x y 0).map ((List.map (quarter_turn (x, y)))^[r])) ∧
    (∀ r, r < 4 → (get_piece_coords piece x y r).map ((List.map (quarter_turn (x, y)))^[4])
        = get_piece_coords piece x y r) := by
  have h4 : ∀ o : Option (List (Int × Int)),
      o.map ((List.map (quarter_turn (x, y)))^[4]) = o := by
    intro o
    rw [quarter_turn_four_times, Option.map_id_fun, id]
  interval_cases piece <;>
  · refine ⟨rfl, rfl, rfl, rfl, ?_, fun r _ => h4 _⟩
    intro r hr
    interval_cases r
    all_goals
      simp [quarter_turn, get_piece_coords, at_index, xs, ys]
      try omega

/-- An instance for the T piece (kind 5) at pivot `(4, 10)`: the cells of
rotation 1, and four quarter turns applied to them. -/
theorem get_piece_coords_rotations_witness :
    ((1 : Nat) ≤ 5 ∧ (5 : Nat) ≤ 7) ∧
    get_piece_coords 5 4 10 1
        = some [(4 + (stored_offset 5 0).2, 10 - (stored_offset 5 0).1),
            (4 + (stored_offset 5 1).2, 10 - (stored_offset 5 1).1),
            (4 + (stored_offset 5 2).2, 10 - (stored_offset 5 2).1), (4, 10)] ∧
    (get_piece_coords 5 4 10 1).map ((List.map (quarter_turn (4, 10)))^[4])
        = get_piece_coords 5 4 10 1 :=
  ⟨⟨by decide, by decide⟩,
    (get_piece_coords_rotations 5 (by decide) (by decide) 4 10).2.1,
    (get_piece_coords_rotations 5 (by decide) (by decide) 4 10).2.2.2.2.2 1 (by decide)⟩

/-- Claim C1: for a state whose piece kind is in 1..7 and for `drot` 0 or 1
(any `dx`, `dy`), `try_move` returns, and it returns success exactly when each
of the four cells of `get_piece_coords(kind, x+dx, y+dy, (rot+drot+4) mod
rots[kind-1])` has its column in `[0,10)`, its row in `[0,22)` and a board
value of 0; on success the pivot and the rotation of the state are that
candidate pivot and candidate rotation. -/
theorem try_move_legal_iff (t : Tetris) (dx dy drot : Int)
    (h1 : 1 ≤ t.piece) (h7 : t.piece ≤ 7) (hd : drot = 0 ∨ drot = 1) :
    ∃ n cells r,
      at_index rots ((t.piece : Int) - 1) = some n ∧
      get_piece_coords t.piece (t.x + dx) (t.y + dy) (((t.rot : Int) + drot + 4) % n).toNat
        = some cells ∧
      try_move t dx dy drot = some r ∧
      (r.1 = true ↔ ∀ c ∈ cells, (0 ≤ c.1 ∧ c.1 < 10) ∧ (0 ≤ c.2 ∧ c.2 < 22) ∧
          t.board.getD (c.1 + c.2 * 10).toNat 0 = 0) ∧
      (r.1 = true → (r.2.x : Int) = t.x + dx ∧ (r.2.y : Int) = t.y + dy ∧
          (r.2.rot : Int) = ((t.rot : Int) + drot + 4) % n) := by
  obtain ⟨n, hn, hn1, hn4, -⟩ := rots_lookup t.piece h1 h7
  have ha : (0 : Int) ≤ (t.rot : Int) + drot + 4 := by rcases hd with h | h <;> omega
  obtain ⟨hu, hlt, hcast⟩ := to_u8_tmod _ n ha hn1 hn4
  obtain ⟨c0, c1, c2, hc⟩ := coords_defined t.piece h1 h7 (t.x + dx) (t.y + dy) _ hlt
  have hall : (List.any [c0, c1, c2, ((t.x : Int) + dx, (t.y : Int) + dy)]
        (fun c => blocked t.board c.1 c.2) = false) ↔
      ∀ c ∈ [c0, c1, c2, ((t.x : Int) + dx, (t.y : Int) + dy)],
        (0 ≤ c.1 ∧ c.1 < 10) ∧ (0 ≤ c.2 ∧ c.2 < 22) ∧
          t.board.getD (c.1 + c.2 * 10).toNat 0 = 0 := by
    rw [List.any_eq_false]
    constructor
    · intro h c hcm
      exact (blocked_false_iff _ _ _).1 (by simpa using h c hcm)
    · intro h c hcm
      simpa using (blocked_false_iff _ _ _).2 (h c hcm)
  by_cases hb : List.any [c0, c1, c2, ((t.x : Int) + dx, (t.y : Int) + dy)]
        (fun c => blocked t.board c.1 c.2) = true
  · have htm : try_move t dx dy drot = some (false, t) := by
      simp only [try_move, hn, hu, hc, hb, if_true]
    refine ⟨n, _, _, hn, hc, htm, ?_, ?_⟩
    · constructor
      · intro h; exact absurd h Bool.false_ne_true
      · intro h
        rw [← hall] at h
        rw [h] at hb
        exact absurd hb Bool.false_ne_true
    · intro h; exact absurd h Bool.false_ne_true
  · have hb' := Bool.eq_false_iff.2 hb
    have hp := hall.1 hb' ((t.x : Int) + dx, (t.y : Int) + dy) (by simp)
    have htm : try_move t dx dy drot = some (true,
        { t with
          x := to_u8 (t.x + dx)
          y := to_u8 (t.y + dy)
          rot := (((t.rot : Int) + drot + 4) % n).toNat }) := by
      simp only [try_move, hn, hu, hc, hb', Bool.false_eq_true, if_false]
    refine ⟨n, _, _, hn, hc, htm, ?_, ?_⟩
    · exact ⟨fun _ => hall.1 hb', fun _ => rfl⟩
    · intro _
      simp only [to_u8] at hp ⊢
      refine ⟨?_, ?_, hcast⟩
      · omega
      · omega

/-- An instance at `mid_state`: the move one column to the left with rotation
change 1. -/
theorem try_move_legal_iff_witness :
    (1 ≤ mid_state.piece ∧ mid_state.piece ≤ 7 ∧ ((1 : Int) = 0 ∨ (1 : Int) = 1)) ∧
    ∃ n cells r,
      at_index rots ((mid_state.piece : Int) - 1) = some n ∧
      get_piece_coords mid_state.piece (mid_state.x + -1) (mid_state.y + 0)
          (((mid_state.rot : Int) + 1 + 4) % n).toNat = some cells ∧
      try_move mid_state (-1) 0 1 = some r ∧
      (r.1 = true ↔ ∀ c ∈ cells, (0 ≤ c.1 ∧ c.1 < 10) ∧ (0 ≤ c.2 ∧ c.2 < 22) ∧
          mid_state.board.getD (c.1 + c.2 * 10).toNat 0 = 0) ∧
      (r.1 = true → (r.2.x : Int) = mid_state.x + -1 ∧ (r.2.y : Int) = mid_state.y + 0 ∧
          (r.2.rot : Int) = ((mid_state.rot : Int) + 1 + 4) % n) :=
  ⟨⟨by decide, by decide, Or.inr rfl⟩,
    try_move_legal_iff mid_state (-1) 0 1 (by decide) (by decide) (Or.inr rfl)⟩

/-- Claim C2: for a state with piece kind in 1..7, whenever `try_move`
returns failure the whole state after the call equals the state before it,
and whenever it returns success only the pivot `x`, the pivot `y` and the
rotation may differ (the board is never modified); the call does return for
every `drot` with `rot + drot + 4 ≥ 0`. -/
theorem try_move_frame (t : Tetris) (dx dy drot : Int)
    (h1 : 1 ≤ t.piece) (h7 : t.piece ≤ 7) :
    (0 ≤ (t.rot : Int) + drot + 4 → ∃ r, try_move t dx dy drot = some r) ∧
    ∀ r, try_move t dx dy drot = some r →
      (r.1 = false → r.2 = t) ∧
      (r.1 = true → r.2 = { t with x := r.2.x, y := r.2.y, rot := r.2.rot }) ∧
      r.2.board = t.board := by
  refine ⟨try_move_defined t dx dy drot h1 h7, ?_⟩
  intro r hr
  rcases try_move_cases t dx dy drot r hr with rfl | ⟨x, y, rot, rfl⟩
  · exact ⟨fun _ => rfl, fun h => absurd h Bool.false_ne_true, rfl⟩
  · exact ⟨fun h => absurd h (by simp), fun _ => rfl, rfl⟩

/-- An instance at `mid_state`: the move one row down. -/
theorem try_move_frame_witness :
    (1 ≤ mid_state.piece ∧ mid_state.piece ≤ 7) ∧
    ((0 ≤ (mid_state.rot : Int) + 0 + 4 → ∃ r, try_move mid_state 0 (-1) 0 = some r) ∧
    ∀ r, try_move mid_state 0 (-1) 0 = some r →
      (r.1 = false → r.2 = mid_state) ∧
      (r.1 = true → r.2 = { mid_state with x := r.2.x, y := r.2.y, rot := r.2.rot }) ∧
      r.2.board = mid_state.board) :=
  ⟨⟨by decide, by decide⟩, try_move_frame mid_state 0 (-1) 0 (by decide) (by decide)⟩

/-! ## The line-clear loop of `glue` -/

theorem getD_set_zero (l : List Nat) (n i a : Nat) :
    (l.set n a).getD i 0 = if n = i ∧ n < l.length then a else l.getD i 0 := by
  simp only [List.getD_eq_getElem?_getD, List.getElem?_set]
  by_cases h : n = i
  · subst h
    by_cases h2 : n < l.length
    · simp [h2]
    · simp [h2, List.getElem?_eq_none (Nat.le_of_not_lt h2)]
  · simp [h]

theorem sweep_cells_spec (b : List Nat) (y c : Nat) (hb : b.length = 220) (hy : y < 22)
    (hc : c ≤ y) (k : Nat) (hk : k ≤ 10) :
    ((List.range k).foldl (sweep_cell y c) (b, 0)).1.length = 220 ∧
    (∀ i, ((List.range k).foldl (sweep_cell y c) (b, 0)).1.getD i 0 =
        if i / 10 = y - c ∧ i % 10 < k then b.getD (i % 10 + y * 10) 0
        else if i / 10 = y ∧ i % 10 < k then 0 else b.getD i 0) ∧
    ((List.range k).foldl (sweep_cell y c) (b, 0)).2 =
      ((List.range k).filter (fun x => b.getD (x + y * 10) 0 ≠ 0)).length := by
  induction k with
  | zero =>
    refine ⟨hb, ?_, rfl⟩
    intro i
    have h1 : ¬ (i / 10 = y - c ∧ i % 10 < 0) := by omega
    have h2 : ¬ (i / 10 = y ∧ i % 10 < 0) := by omega
    simp only [List.range_zero, List.foldl_nil]
    rw [if_neg h1, if_neg h2]
  | succ k ih =>
    obtain ⟨hlen, hget, hcnt⟩ := ih (by omega)
    rw [List.range_succ, List.foldl_append, List.foldl_cons, List.foldl_nil]
    generalize (List.range k).foldl (sweep_cell y c) (b, 0) = s at hlen hget hcnt
    have hold : s.1.getD (k + y * 10) 0 = b.getD (k + y * 10) 0 := by
      rw [hget]
      have h1 : ¬ ((k + y * 10) / 10 = y - c ∧ (k + y * 10) % 10 < k) := by omega
      have h2 : ¬ ((k + y * 10) / 10 = y ∧ (k + y * 10) % 10 < k) := by omega
      rw [if_neg h1, if_neg h2]
    refine ⟨?_, ?_, ?_⟩
    · simp [sweep_cell, hlen]
    · intro i
      simp only [sweep_cell, getD_set_zero, List.length_set, hlen, hold, hget]
      by_cases hA : k + (y - c) * 10 = i
      · have e1 : i / 10 = y - c ∧ i % 10 < k + 1 := by omega
        have e2 : i % 10 + y * 10 = k + y * 10 := by omega
        rw [if_pos ⟨hA, by omega⟩, if_pos e1, e2]
      · rw [if_neg (fun h => hA h.1)]
        by_cases hB : k + y * 10 = i
        · have e1 : ¬ (i / 10 = y - c ∧ i % 10 < k + 1) := by omega
          have e2 : i / 10 = y ∧ i % 10 < k + 1 := by omega
          rw [if_pos ⟨hB, by omega⟩, if_neg e1, if_pos e2]
        · rw [if_neg (fun h => hB h.1)]
          by_cases hC : i / 10 = y - c ∧ i % 10 < k
          · rw [if_pos hC, if_pos ⟨hC.1, by omega⟩]
          · have e1 : ¬ (i / 10 = y - c ∧ i % 10 < k + 1) := by omega
            rw [if_neg hC, if_neg e1]
            by_cases hD : i / 10 = y ∧ i % 10 < k
            · rw [if_pos hD, if_pos ⟨hD.1, by omega⟩]
            · have e2 : ¬ (i / 10 = y ∧ i % 10 < k + 1) := by omega
              rw [if_neg hD, if_neg e2]
    · simp only [sweep_cell, hold, hcnt, List.filter_append, List.length_append]
      by_cases hz : b.getD (k + y * 10) 0 = 0
      · simp only [hz, ne_eq, not_true_eq_false, if_false, List.filter_cons, decide_False,
          Bool.false_eq_true, List.filter_nil, List.length_nil]
      · simp only [hz, ne_eq, not_false_eq_true, if_true, List.filter_cons, decide_True,
          List.filter_nil, List.length_cons, List.length_nil]

theorem sweep_row_eq (b : List Nat) (y c : Nat) :
    sweep_row (b, c) y =
      (((List.range 10).foldl (sweep_cell y c) (b, 0)).1,
        c + if ((List.range 10).foldl (sweep_cell y c) (b, 0)).2 = 10 then 1 else 0) := rfl

theorem sweep_row_spec (b : List Nat) (y c : Nat) (hb : b.length = 220) (hy : y < 22)
    (hc : c ≤ y) :
    (sweep_row (b, c) y).1.length = 220 ∧
    (∀ j, board_row (sweep_row (b, c) y).1 j =
        if j = y - c then board_row b y else if j = y then empty_row else board_row b j) ∧
    (sweep_row (b, c) y).2 = c + if row_full b y then 1 else 0 := by
  obtain ⟨hlen, hget, hcnt⟩ := sweep_cells_spec b y c hb hy hc 10 (Nat.le_refl _)
  rw [sweep_row_eq]
  generalize List.foldl (sweep_cell y c) (b, 0) (List.range 10) = s at hlen hget hcnt
  refine ⟨hlen, ?_, ?_⟩
  · intro j
    simp only [board_row]
    by_cases h1 : j = y - c
    · rw [if_pos h1]
      apply List.map_congr_left
      intro x hx
      have hx' : x < 10 := List.mem_range.1 hx
      show List.getD s.1 _ 0 = _
      rw [hget, if_pos (by omega)]
      congr 1
      omega
    · rw [if_neg h1]
      by_cases h2 : j = y
      · rw [if_pos h2]
        have : empty_row = List.map (fun _ => 0) (List.range 10) := by decide
        rw [this]
        apply List.map_congr_left
        intro x hx
        have hx' : x < 10 := List.mem_range.1 hx
        show List.getD s.1 _ 0 = _
        rw [hget, if_neg (by omega), if_pos (by omega)]
      · rw [if_neg h2]
        apply List.map_congr_left
        intro x hx
        have hx' : x < 10 := List.mem_range.1 hx
        show List.getD s.1 _ 0 = _
        rw [hget, if_neg (by omega), if_neg (by omega)]
  · show c + _ = c + _
    congr 1
    rw [hcnt]
    have hiff : (List.filter (fun x => decide (b.getD (x + y * 10) 0 ≠ 0)) (List.range 10)).length
        = 10 ↔ row_full b y = true := by
      have hfl := @List.filter_length_eq_length _
        (fun x => decide (b.getD (x + y * 10) 0 ≠ 0)) (List.range 10)
      rw [List.length_range] at hfl
      rw [hfl]
      simp only [row_full, is_full, board_row, List.all_eq_true, List.mem_map, List.mem_range,
        decide_eq_true_eq, ne_eq, bne_iff_ne]
      constructor
      · rintro h v ⟨x, hx, rfl⟩
        exact h x hx
      · intro h x hx
        exact h _ ⟨x, hx, rfl⟩
    by_cases hf : row_full b y = true
    · rw [if_pos (hiff.2 hf), if_pos hf]
    · rw [if_neg (fun h => hf (hiff.1 h)), if_neg hf]

theorem sweep_rows_spec (B : List Nat) (hB : B.length = 220) (y : Nat) (hy : y ≤ 22) :
    ((List.range y).foldl sweep_row (B, 0)).1.length = 220 ∧
    ((List.range y).foldl sweep_row (B, 0)).2 = ((List.range y).filter (row_full B)).length ∧
    ((List.range y).foldl sweep_row (B, 0)).2
      + ((List.range y).filter (fun j => !row_full B j)).length = y ∧
    (List.range (y - ((List.range y).foldl sweep_row (B, 0)).2)).map
        (board_row ((List.range y).foldl sweep_row (B, 0)).1)
      = ((List.range y).filter (fun j => !row_full B j)).map (board_row B) ∧
    (∀ j, y ≤ j → board_row ((List.range y).foldl sweep_row (B, 0)).1 j = board_row B j) ∧
    (∀ j, y - ((List.range y).foldl sweep_row (B, 0)).2 ≤ j → j < y →
      board_row ((List.range y).foldl sweep_row (B, 0)).1 j =
        if j = y - ((List.range y).foldl sweep_row (B, 0)).2 ∧ row_full B (y - 1) = true
        then board_row B (y - 1) else empty_row) := by
  induction y with
  | zero =>
    refine ⟨hB, rfl, rfl, rfl, fun j _ => rfl, ?_⟩
    intro j _ h
    exact absurd h (Nat.not_lt_zero j)
  | succ y ih =>
    obtain ⟨hlen, hc, hsum, h3, h4, h5⟩ := ih (by omega)
    rw [List.range_succ, List.foldl_append, List.foldl_cons, List.foldl_nil]
    generalize (List.range y).foldl sweep_row (B, 0) = s at hlen hc hsum h3 h4 h5
    obtain ⟨bd, c⟩ := s
    simp only at hlen hc hsum h3 h4 h5
    have hcy : c ≤ y := by omega
    obtain ⟨hlen', hrow, hc'⟩ := sweep_row_spec bd y c hlen (by omega) hcy
    have hfy : row_full bd y = row_full B y := by
      simp only [row_full, h4 y (Nat.le_refl y)]
    rw [hfy] at hc'
    generalize sweep_row (bd, c) y = s' at hlen' hrow hc'
    obtain ⟨bd', c'⟩ := s'
    simp only at hlen' hrow hc'
    simp only [List.filter_append, List.length_append, List.map_append, Nat.add_sub_cancel]
    have hlow : ∀ j, j < y - c → board_row bd' j = board_row bd j := by
      intro j hj
      rw [hrow, if_neg (by omega), if_neg (by omega)]
    have hmid : board_row bd' (y - c) = board_row B y := by
      rw [hrow, if_pos rfl, h4 y (Nat.le_refl y)]
    have hhigh : ∀ j, y + 1 ≤ j → board_row bd' j = board_row B j := by
      intro j hj
      rw [hrow, if_neg (by omega), if_neg (by omega), h4 j (by omega)]
    have hlowmap : (List.range (y - c)).map (board_row bd')
        = ((List.range y).filter (fun j => !row_full B j)).map (board_row B) := by
      rw [← h3]
      apply List.map_congr_left
      intro j hj
      exact hlow j (List.mem_range.1 hj)
    by_cases hF : row_full B y = true
    · rw [if_pos hF] at hc'
      subst c'
      have e1 : y + 1 - (c + 1) = y - c := by omega
      simp only [List.filter_cons, List.filter_nil, hF, if_true, Bool.not_true,
        Bool.false_eq_true, if_false, List.length_cons, List.length_nil, List.map_nil,
        List.append_nil, e1]
      refine ⟨hlen', by omega, by omega, hlowmap, hhigh, ?_⟩
      intro j h1 h2
      by_cases hj : j = y - c
      · rw [if_pos ⟨hj, trivial⟩, hj, hmid]
      · rw [if_neg (fun h => hj h.1), hrow, if_neg hj]
        by_cases hjy : j = y
        · rw [if_pos hjy]
        · rw [if_neg hjy, h5 j h1 (by omega), if_neg (fun h => hj h.1)]
    · rw [if_neg hF] at hc'
      have hF' : row_full B y = false := Bool.eq_false_iff.2 hF
      rw [Nat.add_zero] at hc'
      subst c'
      have e1 : y + 1 - c = (y - c) + 1 := by omega
      simp only [List.filter_cons, List.filter_nil, hF', Bool.false_eq_true, if_false,
        Bool.not_false, if_true, List.length_cons, List.length_nil, List.map_cons, List.map_nil,
        e1, List.range_succ, List.map_append]
      refine ⟨hlen', by omega, by omega, ?_, hhigh, ?_⟩
      · rw [hlowmap, hmid]
      · intro j h1 h2
        rw [if_neg (fun h => absurd h.2 (by simp)), hrow, if_neg (by omega)]
        by_cases hjy : j = y
        · rw [if_pos hjy]
        · rw [if_neg hjy, h5 j (by omega) (by omega), if_neg (fun h => by omega)]

theorem sweep_cleared (B : List Nat) (hB : B.length = 220) : (sweep B).2 = full_rows B := by
  obtain ⟨-, hc, -⟩ := sweep_rows_spec B hB 22 (Nat.le_refl _)
  unfold sweep full_rows board_rows
  rw [hc, List.filter_map, List.length_map]
  rfl

theorem sweep_cleared_le (B : List Nat) (hB : B.length = 220) (y : Nat) (hy : y ≤ 22) :
    ((List.range y).foldl sweep_row (B, 0)).2 ≤ y := by
  obtain ⟨-, -, hsum, -⟩ := sweep_rows_spec B hB y hy
  omega

theorem sweep_vacated_rows (B : List Nat) (hB : B.length = 220) (j : Nat)
    (h1 : 22 - full_rows B ≤ j) (h2 : j < 22) :
    board_row (sweep B).1 j =
      if j = 22 - full_rows B ∧ row_full B 21 = true then board_row B 21 else empty_row := by
  obtain ⟨-, -, -, -, -, h5⟩ := sweep_rows_spec B hB 22 (Nat.le_refl _)
  have hC := sweep_cleared B hB
  unfold sweep at hC ⊢
  rw [← hC]
  rw [← hC] at h1
  exact h5 j h1 h2

/-! ## `glue` on a legally placed piece -/

theorem board_stores_defined (piece : Nat) (cells : List (Int × Int)) :
    ∀ b : List Nat,
      (∀ c ∈ cells, (0 ≤ c.1 ∧ c.1 < 10) ∧ (0 ≤ c.2 ∧ c.2 < 22)) →
      ∃ w, cells.foldlM (fun b c => board_store b (c.1 + c.2 * 10) piece) b = some w ∧
        w.length = b.length := by
  induction cells with
  | nil => intro b _; exact ⟨b, rfl, rfl⟩
  | cons c cs ih =>
    intro b hrange
    have hc := hrange c (List.mem_cons_self _ _)
    have hidx : 0 ≤ c.1 + c.2 * 10 ∧ c.1 + c.2 * 10 < 220 := by omega
    obtain ⟨w, hw, hwl⟩ := ih (b.set (c.1 + c.2 * 10).toNat piece)
      (fun d hd => hrange d (List.mem_cons_of_mem _ hd))
    refine ⟨w, ?_, ?_⟩
    · rw [List.foldlM_cons]
      simp only [board_store, hidx, and_self, if_true]
      exact hw
    · rw [hwl, List.length_set]

theorem legally_placed_iff (t : Tetris) :
    legally_placed t = true ↔
      ∃ cells, get_piece_coords t.piece t.x t.y t.rot = some cells ∧
        ∀ c ∈ cells, (0 ≤ c.1 ∧ c.1 < 10) ∧ (0 ≤ c.2 ∧ c.2 < 22) ∧
          t.board.getD (c.1 + c.2 * 10).toNat 0 = 0 := by
  unfold legally_placed
  cases h : get_piece_coords t.piece t.x t.y t.rot with
  | none => simp
  | some cells =>
    simp only [List.all_eq_true, Bool.not_eq_true', blocked_false_iff, Option.some.injEq,
      exists_eq_left']

theorem write_piece_defined (t : Tetris) (hp : legally_placed t = true) :
    ∃ w, write_piece t = some w ∧ w.length = t.board.length := by
  obtain ⟨cells, hc, hall⟩ := (legally_placed_iff t).1 hp
  obtain ⟨w, hw, hl⟩ := board_stores_defined t.piece cells t.board
    (fun c hcm => ⟨(hall c hcm).1, (hall c hcm).2.1⟩)
  exact ⟨w, by simp only [write_piece, hc, hw], hl⟩

theorem try_move_null (t1 : Tetris) (h1 : 1 ≤ t1.piece) (h7 : t1.piece ≤ 7) (hx : t1.x = 5)
    (hy : t1.y = 20) (hr : t1.rot = 0) :
    ∃ cells, get_piece_coords t1.piece 5 20 0 = some cells ∧
      (∀ c ∈ cells, (0 ≤ c.1 ∧ c.1 < 10) ∧ (0 ≤ c.2 ∧ c.2 < 22)) ∧
      try_move t1 0 0 0 =
        if cells.any (fun c => blocked t1.board c.1 c.2) then some (false, t1)
        else some (true, t1) := by
  obtain ⟨n, hn, hn1, hn4, hdiv⟩ := rots_lookup t1.piece h1 h7
  have hrot : Int.tmod ((t1.rot : Int) + 0 + 4) n = 0 := by
    rw [hr, Int.tmod_eq_emod (by decide) (by omega)]
    exact hdiv
  have hcells : ∃ cells, get_piece_coords t1.piece 5 20 0 = some cells ∧
      ∀ c ∈ cells, (0 ≤ c.1 ∧ c.1 < 10) ∧ (0 ≤ c.2 ∧ c.2 < 22) := by
    generalize t1.piece = p at h1 h7
    interval_cases p <;> exact ⟨_, rfl, by decide⟩
  obtain ⟨cells, hc, hrange⟩ := hcells
  refine ⟨cells, hc, hrange, ?_⟩
  have hself : ({ t1 with x := 5, y := 20, rot := 0 } : Tetris) = t1 := by
    cases t1
    simp only at hx hy hr
    subst hx hy hr
    rfl
  have e5 : ((5 : Nat) : Int) + 0 = 5 := rfl
  have e20 : ((20 : Nat) : Int) + 0 = 20 := rfl
  have u0 : to_u8 0 = 0 := rfl
  have u5 : to_u8 5 = 5 := rfl
  have u20 : to_u8 20 = 20 := rfl
  simp only [try_move, hn, hrot, hx, hy, e5, e20, u0, u5, u20, hc, hself]

theorem glue_unfold (t : Tetris) (w : List Nat) (sw : List Nat × Nat)
    (hw : write_piece t = some w) (hsw : sweep w = sw) :
    glue t =
      match try_move
        { t with
          board := sw.1
          piece := t.piece % 7 + 1
          x := 5
          y := 20
          rot := 0
          score := (t.score + ((t.lines / 10 + 1) <<< sw.2) % 2 ^ 32) % 2 ^ 32
          lines := (t.lines + sw.2) % 2 ^ 32 } 0 0 0 with
      | none => none
      | some (true, t2) => some t2
      | some (false, t2) => some { t2 with piece := 0 } := by
  subst hsw
  simp only [glue, hw]

theorem glue_eq (t : Tetris) (hp : legally_placed t = true) :
    ∃ w cells, write_piece t = some w ∧ w.length = t.board.length ∧
      get_piece_coords (t.piece % 7 + 1) 5 20 0 = some cells ∧
      (∀ c ∈ cells, (0 ≤ c.1 ∧ c.1 < 10) ∧ (0 ≤ c.2 ∧ c.2 < 22)) ∧
      glue t = some
        { t with
          board := (sweep w).1
          piece := if cells.any (fun c => blocked (sweep w).1 c.1 c.2) then 0 else t.piece % 7 + 1
          x := 5
          y := 20
          rot := 0
          score := (t.score + ((t.lines / 10 + 1) <<< (sweep w).2) % 2 ^ 32) % 2 ^ 32
          lines := (t.lines + (sweep w).2) % 2 ^ 32 } := by
  obtain ⟨w, hw, hwl⟩ := write_piece_defined t hp
  have hk1 : 1 ≤ t.piece % 7 + 1 := by omega
  have hk7 : t.piece % 7 + 1 ≤ 7 := by omega
  refine ⟨w, ?_⟩
  generalize hsw : sweep w = sw
  obtain ⟨cells, hc, hrange, htm⟩ := try_move_null
    { t with
      board := sw.1
      piece := t.piece % 7 + 1
      x := 5
      y := 20
      rot := 0
      score := (t.score + ((t.lines / 10 + 1) <<< sw.2) % 2 ^ 32) % 2 ^ 32
      lines := (t.lines + sw.2) % 2 ^ 32 } hk1 hk7 rfl rfl rfl
  refine ⟨cells, hw, hwl, hc, hrange, ?_⟩
  simp only at htm
  rw [glue_unfold t w sw hw hsw, htm]
  by_cases hb : cells.any (fun c => blocked sw.1 c.1 c.2) = true
  · simp only [hb, if_true]
  · simp only [hb, if_false, Bool.false_eq_true]

/-- Claim C4: when `glue` is invoked with a legally placed piece on a board
of 220 cells, with `L` the lines total before the call and `n` the number of
full rows of the board after the four cells of the piece are written, `glue`
returns a state whose score is the old score plus `(L/10 + 1) << n` and whose
lines total is `L + n`, both in the arithmetic of the 32-bit counters (modulo
2^32); the lines total is exactly `L + n` whenever that sum fits 32 bits. -/
theorem glue_score_lines (t : Tetris) (hlen : t.board.length = 220)
    (hp : legally_placed t = true) :
    ∃ w g, write_piece t = some w ∧ glue t = some g ∧
      g.score = (t.score + (t.lines / 10 + 1) <<< full_rows w) % 2 ^ 32 ∧
      g.lines = (t.lines + full_rows w) % 2 ^ 32 ∧
      (t.lines + full_rows w < 2 ^ 32 → g.lines = t.lines + full_rows w) := by
  obtain ⟨w, cells, hw, hwl, -, -, hg⟩ := glue_eq t hp
  have hcl := sweep_cleared w (hwl.trans hlen)
  refine ⟨w, ?_⟩
  generalize sweep w = sw at hg hcl
  refine ⟨_, hw, hg, ?_, ?_, ?_⟩
  · simp only [hcl, Nat.add_mod_mod]
  · simp only [hcl]
  · intro h
    simp only [hcl, Nat.mod_eq_of_lt h]

/-- An instance at `floor_state`, where locking the piece completes row 0. -/
theorem glue_score_lines_witness :
    (floor_state.board.length = 220 ∧ legally_placed floor_state = true) ∧
    ∃ w g, write_piece floor_state = some w ∧ glue floor_state = some g ∧
      g.score = (floor_state.score + (floor_state.lines / 10 + 1) <<< full_rows w) % 2 ^ 32 ∧
      g.lines = (floor_state.lines + full_rows w) % 2 ^ 32 ∧
      (floor_state.lines + full_rows w < 2 ^ 32 → g.lines = floor_state.lines + full_rows w) :=
  ⟨⟨by decide!, by decide!⟩, glue_score_lines floor_state (by decide!) (by decide!)⟩

/-! ## Clearing full rows one at a time -/

theorem remove_lowest_full_none (rows : List (List Nat)) (h : remove_lowest_full rows = none) :
    rows.filter (fun r => !is_full r) = rows ∧ rows.filter is_full = [] := by
  induction rows with
  | nil => exact ⟨rfl, rfl⟩
  | cons r rs ih =>
    unfold remove_lowest_full at h
    by_cases hf : is_full r = true
    · rw [if_pos hf] at h
      exact absurd h (by simp)
    · rw [if_neg hf] at h
      have hrs : remove_lowest_full rs = none := by
        cases hr : remove_lowest_full rs with
        | none => rfl
        | some l => rw [hr] at h; exact absurd h (by simp)
      obtain ⟨h1, h2⟩ := ih hrs
      have hf' : is_full r = false := Bool.eq_false_iff.2 hf
      simp only [List.filter_cons, hf', Bool.not_false, if_true, Bool.false_eq_true, if_false,
        h1, h2, and_self]

theorem remove_lowest_full_some (rows rest : List (List Nat))
    (h : remove_lowest_full rows = some rest) :
    rest.filter (fun r => !is_full r) = rows.filter (fun r => !is_full r) ∧
    (rest.filter is_full).length + 1 = (rows.filter is_full).length := by
  induction rows generalizing rest with
  | nil => exact absurd h (by simp [remove_lowest_full])
  | cons r rs ih =>
    unfold remove_lowest_full at h
    by_cases hf : is_full r = true
    · rw [if_pos hf] at h
      obtain rfl : rs = rest := Option.some.inj h
      simp only [List.filter_cons, hf, Bool.not_true, Bool.false_eq_true, if_false, if_true,
        List.length_cons, and_self]
    · rw [if_neg hf] at h
      have hf' : is_full r = false := Bool.eq_false_iff.2 hf
      cases hr : remove_lowest_full rs with
      | none => rw [hr] at h; exact absurd h (by simp)
      | some l =>
        rw [hr] at h
        obtain rfl : r :: l = rest := Option.some.inj h
        obtain ⟨h1, h2⟩ := ih l hr
        simp only [List.filter_cons, hf', Bool.not_false, if_true, Bool.false_eq_true, if_false,
          h1, h2, and_self]

theorem clear_one_at_a_time_spec (fuel : Nat) :
    ∀ rows : List (List Nat), (rows.filter is_full).length ≤ fuel →
      clear_one_at_a_time fuel rows =
        rows.filter (fun r => !is_full r) ++
          List.replicate (rows.filter is_full).length empty_row := by
  induction fuel with
  | zero =>
    intro rows h
    have hnil : rows.filter is_full = [] := List.eq_nil_of_length_eq_zero (by omega)
    have hall : rows.filter (fun r => !is_full r) = rows := by
      rw [List.filter_eq_self]
      intro r hr
      have : r ∉ rows.filter is_full := by rw [hnil]; exact List.not_mem_nil r
      rw [List.mem_filter] at this
      simpa using fun hfull => this ⟨hr, hfull⟩
    simp only [clear_one_at_a_time, hnil, hall, List.length_nil, List.replicate_zero,
      List.append_nil]
  | succ fuel ih =>
    intro rows h
    unfold clear_one_at_a_time
    cases hr : remove_lowest_full rows with
    | none =>
      obtain ⟨h1, h2⟩ := remove_lowest_full_none rows hr
      simp only [h1, h2, List.length_nil, List.replicate_zero, List.append_nil]
    | some rest =>
      obtain ⟨h1, h2⟩ := remove_lowest_full_some rows rest hr
      have he : is_full empty_row = false := by decide
      have hfa : (rest ++ [empty_row]).filter is_full = rest.filter is_full := by
        simp only [List.filter_append, List.filter_cons, he, Bool.false_eq_true, if_false,
          List.filter_nil, List.append_nil]
      have hfb : (rest ++ [empty_row]).filter (fun r => !is_full r)
          = rows.filter (fun r => !is_full r) ++ [empty_row] := by
        simp only [List.filter_append, List.filter_cons, he, Bool.not_false, if_true,
          List.filter_nil, h1]
      simp only
      rw [ih (rest ++ [empty_row]) (by rw [hfa]; omega), hfa, hfb, ← h2, List.replicate_succ,
        List.append_assoc, List.singleton_append]

/-- Claim C5: for every board `B` of 220 cells with `C` full rows, the
line-clear loop of `glue` produces a board whose rows `0 .. 21-C` are exactly
the non-full rows of `B` in their original bottom-to-top order, each with its
10 column values unchanged (there are `22 - C` of them); on those rows the
result equals clearing the full rows one at a time from the bottom and
letting the rows above fall. -/
theorem sweep_compaction (B : List Nat) (hB : B.length = 220) :
    ((board_rows B).filter (fun r => !is_full r)).length = 22 - full_rows B ∧
    (board_rows (sweep B).1).take (22 - full_rows B)
      = (board_rows B).filter (fun r => !is_full r) ∧
    (board_rows (sweep B).1).take (22 - full_rows B)
      = (clear_one_at_a_time 22 (board_rows B)).take (22 - full_rows B) := by
  obtain ⟨-, hc, hsum, h3, -, -⟩ := sweep_rows_spec B hB 22 (Nat.le_refl _)
  have hC := sweep_cleared B hB
  have hnf : (board_rows B).filter (fun r => !is_full r)
      = ((List.range 22).filter (fun j => !row_full B j)).map (board_row B) := by
    unfold board_rows
    rw [List.filter_map]
    rfl
  have hlen : ((board_rows B).filter (fun r => !is_full r)).length = 22 - full_rows B := by
    rw [hnf, List.length_map, ← hC]
    unfold sweep
    omega
  have htake : (board_rows (sweep B).1).take (22 - full_rows B)
      = (board_rows B).filter (fun r => !is_full r) := by
    rw [hnf, ← h3, ← hC]
    unfold board_rows sweep
    rw [← List.map_take, List.take_range, Nat.min_eq_left (Nat.sub_le _ _)]
  refine ⟨hlen, htake, ?_⟩
  rw [htake, clear_one_at_a_time_spec 22 (board_rows B)
    (by
      have := List.length_filter_le is_full (board_rows B)
      simpa [board_rows] using this),
    ← hlen, List.take_left]

/-- An instance on `top_full_board`. -/
theorem sweep_compaction_witness :
    top_full_board.length = 220 ∧
    (((board_rows top_full_board).filter (fun r => !is_full r)).length
      = 22 - full_rows top_full_board ∧
    (board_rows (sweep top_full_board).1).take (22 - full_rows top_full_board)
      = (board_rows top_full_board).filter (fun r => !is_full r) ∧
    (board_rows (sweep top_full_board).1).take (22 - full_rows top_full_board)
      = (clear_one_at_a_time 22 (board_rows top_full_board)).take
          (22 - full_rows top_full_board)) :=
  ⟨by decide!, sweep_compaction top_full_board (by decide!)⟩

/-- Claim C6 at the board `top_full_board`, whose only full row is the top
row 21: the line-clear loop counts one cleared row and leaves the board as it
was, so row 21 (the one vacated row `22 - C`) still holds ten non-zero cells
and a full row remains on the board. -/
theorem sweep_top_full_board :
    top_full_board.length = 220 ∧ full_rows top_full_board = 1 ∧
    sweep top_full_board = (top_full_board, 1) ∧
    board_row top_full_board 21 = [1, 1, 1, 1, 1, 1, 1, 1, 1, 1] := by
  decide!

/-- Claim C7: when `glue` is invoked with a legally placed piece of kind `k`
(then `k` is in 1..7), let `k2 = (k mod 7) + 1` and let `B2` be the board
after writing the piece and running the line-clear loop. `glue` returns a
state with board `B2`; if the four cells of `get_piece_coords(k2, 5, 20, 0)`
are all empty in `B2` the piece of that state is kind `k2` at pivot `(5, 20)`
with rotation 0, otherwise its piece kind is 0, the game-over sentinel. -/
theorem glue_spawn (t : Tetris) (hp : legally_placed t = true) :
    ∃ w g cells, write_piece t = some w ∧ glue t = some g ∧
      get_piece_coords (t.piece % 7 + 1) 5 20 0 = some cells ∧
      g.board = (sweep w).1 ∧
      ((∀ c ∈ cells, (sweep w).1.getD (c.1 + c.2 * 10).toNat 0 = 0) →
        g.piece = t.piece % 7 + 1 ∧ g.x = 5 ∧ g.y = 20 ∧ g.rot = 0) ∧
      (¬ (∀ c ∈ cells, (sweep w).1.getD (c.1 + c.2 * 10).toNat 0 = 0) → g.piece = 0) := by
  obtain ⟨w, cells, hw, -, hc, hrange, hg⟩ := glue_eq t hp
  refine ⟨w, ?_⟩
  generalize sweep w = sw at hg ⊢
  have hany : cells.any (fun c => blocked sw.1 c.1 c.2) = true ↔
      ¬ (∀ c ∈ cells, sw.1.getD (c.1 + c.2 * 10).toNat 0 = 0) := by
    rw [← Bool.not_eq_false, not_iff_not, List.any_eq_false]
    constructor
    · intro h c hcm
      exact ((blocked_false_iff _ _ _).1 (by simpa using h c hcm)).2.2
    · intro h c hcm
      simpa using (blocked_false_iff _ _ _).2
        ⟨(hrange c hcm).1, (hrange c hcm).2, h c hcm⟩
  refine ⟨_, cells, hw, hg, hc, rfl, ?_, ?_⟩
  · intro hfree
    have hb : ¬ cells.any (fun c => blocked sw.1 c.1 c.2) = true :=
      fun h => hany.1 h hfree
    simp only [hb, if_false, Bool.false_eq_true, and_self]
  · intro hocc
    simp only [hany.2 hocc, if_true]

/-- An instance at `floor_state`: the lock of the I piece on the floor. -/
theorem glue_spawn_witness :
    legally_placed floor_state = true ∧
    ∃ w g cells, write_piece floor_state = some w ∧ glue floor_state = some g ∧
      get_piece_coords (floor_state.piece % 7 + 1) 5 20 0 = some cells ∧
      g.board = (sweep w).1 ∧
      ((∀ c ∈ cells, (sweep w).1.getD (c.1 + c.2 * 10).toNat 0 = 0) →
        g.piece = floor_state.piece % 7 + 1 ∧ g.x = 5 ∧ g.y = 20 ∧ g.rot = 0) ∧
      (¬ (∀ c ∈ cells, (sweep w).1.getD (c.1 + c.2 * 10).toNat 0 = 0) → g.piece = 0) :=
  ⟨by decide!, glue_spawn floor_state (by decide!)⟩

/-! ## The rotate command and the gravity tick -/

/-- Claim C8 at `wall_state` (empty board, I piece at pivot `(0, 10)` with
rotation 1): the candidates `(0,0)`, `(-1,0)` and `(1,0)` with the next
rotation fail, the candidate two columns to the right would succeed and end
at pivot `(2, 10)` with rotation 0, yet the rotate command leaves the state
unchanged, because `i_nudge` compares the kind with 8. -/
theorem rotate_command_wall_state :
    try_move wall_state 0 0 1 = some (false, wall_state) ∧
    try_move wall_state (-1) 0 1 = some (false, wall_state) ∧
    try_move wall_state 1 0 1 = some (false, wall_state) ∧
    try_move wall_state 2 0 1 = some (true, { wall_state with x := 2, rot := 0 }) ∧
    rotate_command wall_state = some wall_state := by
  decide!

/-- Claim C9: for every state with a piece of kind 1..7 (so also for every
such state that is not an I piece at pivot column 0) the rotate command
returns the result of the first legal candidate, with rotation change +1, in
the fixed order `(0,0)`, `(-1,0)`, `(1,0)`, `(0,-1)`, `(0,1)`, each candidate
being tried from the unchanged state, and returns the state unchanged when
none of the five is legal. -/
theorem rotate_command_first_legal (t : Tetris) (h1 : 1 ≤ t.piece) (h7 : t.piece ≤ 7) :
    rotate_command t = some (first_legal_candidate t) ∧
    ∀ c ∈ kick_candidates, ∃ r, try_move t c.1 c.2 1 = some r := by
  have ha : (0 : Int) ≤ (t.rot : Int) + 1 + 4 := by omega
  have hp : (t.piece == 8) = false := by
    rw [beq_eq_false_iff_ne]; omega
  have key : ∀ dx dy : Int, try_move t dx dy 1 = some (false, t) ∨
      ∃ s, try_move t dx dy 1 = some (true, s) := by
    intro dx dy
    obtain ⟨r, hr⟩ := try_move_defined t dx dy 1 h1 h7 ha
    rcases try_move_cases t dx dy 1 r hr with rfl | ⟨x, y, rot, rfl⟩
    · exact Or.inl hr
    · exact Or.inr ⟨_, hr⟩
  constructor
  · unfold rotate_command first_legal_candidate kick_candidates
    simp only [hp, Bool.and_false, Bool.false_eq_true, if_false, List.findSome?, candidate_result]
    rcases key 0 0 with h | ⟨s, h⟩
    all_goals simp only [h, or_try_move, Option.map, Option.getD]
    rcases key (-1) 0 with h | ⟨s, h⟩
    all_goals simp only [h, or_try_move, Option.map, Option.getD]
    rcases key 1 0 with h | ⟨s, h⟩
    all_goals simp only [h, or_try_move, Option.map, Option.getD]
    rcases key 0 (-1) with h | ⟨s, h⟩
    all_goals simp only [h, or_try_move, Option.map, Option.getD]
    rcases key 0 1 with h | ⟨s, h⟩
    all_goals simp only [h, or_try_move, Option.map, Option.getD]
  · intro c _
    exact try_move_defined t c.1 c.2 1 h1 h7 ha

/-- An instance at `mid_state`: the rotate command on the empty board. -/
theorem rotate_command_first_legal_witness :
    (1 ≤ mid_state.piece ∧ mid_state.piece ≤ 7) ∧
    (rotate_command mid_state = some (first_legal_candidate mid_state) ∧
    ∀ c ∈ kick_candidates, ∃ r, try_move mid_state c.1 c.2 1 = some r) :=
  ⟨⟨by decide, by decide⟩, rotate_command_first_legal mid_state (by decide) (by decide)⟩

/-- Claim C16 at kinds 4 (Z) and 6 (O): for every pivot, `get_piece_coords`
at rotation 0 gives kind 4 the cells `(x-1, y)`, `(x, y-1)`, `(x-1, y-1)`,
`(x, y)` and kind 6 the cells `(x-1, y-1)`, `(x-1, y)`, `(x, y-1)`, `(x, y)`:
the same four cells, so the two kinds occupy the same set of cells. -/
theorem z_piece_cells_eq_o_piece_cells (x y : Int) :
    get_piece_coords 4 x y 0 = some [(x + -1, y + 0), (x + 0, y + -1), (x + -1, y + -1), (x, y)] ∧
    get_piece_coords 6 x y 0 = some [(x + -1, y + -1), (x + -1, y + 0), (x + 0, y + -1), (x, y)] ∧
    ∀ c : Int × Int,
      c ∈ [(x + -1, y + 0), (x + 0, y + -1), (x + -1, y + -1), (x, y)] ↔
        c ∈ [(x + -1, y + -1), (x + -1, y + 0), (x + 0, y + -1), (x, y)] := by
  refine ⟨rfl, rfl, ?_⟩
  intro c
  simp only [List.mem_cons, List.mem_singleton, List.not_mem_nil, or_false]
  tauto

/-- Claim C14 at 300 lines: the gravity period `1000000000 >> (300 / 10)` is
0, with a shift count of 30 that C defines. -/
theorem gravity_period_300 : gravity_period 300 = 0 ∧ 300 / 10 < 32 ∧ 300 < 2 ^ 32 := by
  decide

/-- Claim C14 as amended: for every lines total below 300 the gravity period
`1000000000 >> (lines / 10)`, which `add_period` adds to `drop_timer` in the
gravity tick, the soft drop and the hard drop, is strictly positive. -/
theorem gravity_period_pos (lines : Nat) (h : lines < 300) : 0 < gravity_period lines := by
  unfold gravity_period
  rw [Nat.shiftRight_eq_div_pow]
  apply Nat.div_pos
  · calc 2 ^ (lines / 10) ≤ 2 ^ 29 := Nat.pow_le_pow_right (by decide) (by omega)
      _ ≤ 1000000000 := by decide
  · exact Nat.pos_pow_of_pos _ (by decide)

/-- An instance at 299 lines. -/
theorem gravity_period_pos_witness : 299 < 300 ∧ 0 < gravity_period 299 :=
  ⟨by decide, gravity_period_pos 299 (by decide)⟩

/-- The function `try_move` written over `candidate_rot`: the rotation it passes to
`get_piece_coords` and stores on success is the candidate rotation. -/
theorem try_move_candidate_rot (t : Tetris) (dx dy drot : Int) :
    try_move t dx dy drot =
      match candidate_rot t.piece t.rot drot with
      | none => none
      | some rot =>
        match get_piece_coords t.piece ((t.x : Int) + dx) ((t.y : Int) + dy) (to_u8 rot) with
        | none => none
        | some cells =>
          if cells.any (fun c => blocked t.board c.1 c.2) then some (false, t)
          else some (true, { t with
            x := to_u8 ((t.x : Int) + dx)
            y := to_u8 ((t.y : Int) + dy)
            rot := to_u8 rot }) := by
  unfold try_move candidate_rot
  cases at_index rots ((t.piece : Int) - 1) <;> rfl

/-- Claim C13 at kind 1 (four rotations), rotation 0 and `drot = -5`: the
candidate rotation is `-1`, a negative value. -/
theorem candidate_rot_negative :
    candidate_rot 1 0 (-5) = some (-1) ∧ at_index rots ((1 : Int) - 1) = some 4 ∧
      ¬ (0 : Int) ≤ -1 := by
  decide

/-- Claim C13 as amended: for every kind in 1..7 with rotation count `n`,
every rotation index below `n` and every integer `drot` with
`rot + drot + 4 ≥ 0` (so every `drot ≥ -4`, among them the values 0 and 1 the
callers pass), the candidate rotation computed by `try_move` is the
non-negative residue of `rot + drot` modulo `n`, a value in `[0, n)`. -/
theorem candidate_rot_residue (piece rot : Nat) (drot : Int) (h1 : 1 ≤ piece) (h7 : piece ≤ 7)
    (ha : 0 ≤ (rot : Int) + drot + 4) :
    ∃ n r, at_index rots ((piece : Int) - 1) = some n ∧
      candidate_rot piece rot drot = some r ∧
      r = ((rot : Int) + drot) % n ∧ 0 ≤ r ∧ r < n := by
  obtain ⟨n, hn, hn1, hn4, hdiv⟩ := rots_lookup piece h1 h7
  have hc : candidate_rot piece rot drot = some (Int.tmod ((rot : Int) + drot + 4) n) := by
    simp only [candidate_rot, hn]
  refine ⟨n, _, hn, hc, ?_, ?_, ?_⟩
  · rw [Int.tmod_eq_emod ha (by omega)]
    have h4 : (4 : Int) = n * (4 / n) := by
      have := Int.emod_add_ediv 4 n
      omega
    rw [h4, Int.add_mul_emod_self_left]
  · rw [Int.tmod_eq_emod ha (by omega)]
    exact Int.emod_nonneg _ (by omega)
  · rw [Int.tmod_eq_emod ha (by omega)]
    exact Int.emod_lt_of_pos _ (by omega)

/-- An instance for the L piece at rotation 0 with `drot = -1`. -/
theorem candidate_rot_residue_witness :
    ((1 : Nat) ≤ 1 ∧ (1 : Nat) ≤ 7 ∧ (0 : Int) ≤ ((0 : Nat) : Int) + -1 + 4) ∧
    ∃ n r, at_index rots (((1 : Nat) : Int) - 1) = some n ∧
      candidate_rot 1 0 (-1) = some r ∧
      r = (((0 : Nat) : Int) + -1) % n ∧ 0 ≤ r ∧ r < n :=
  ⟨⟨by decide, by decide, by decide⟩,
    candidate_rot_residue 1 0 (-1) (by decide) (by decide) (by decide)⟩

/-! ## Moves of a legally placed piece -/

theorem at_index_bounds {α : Type} (a : List α) (i : Int) (v : α)
    (h : at_index a i = some v) : 0 ≤ i ∧ i.toNat < a.length := by
  unfold at_index at h
  by_cases h0 : 0 ≤ i
  · rw [if_pos h0] at h
    refine ⟨h0, ?_⟩
    by_contra hlt
    rw [List.get?_eq_getElem?, List.getElem?_eq_none (Nat.le_of_not_lt hlt)] at h
    exact absurd h (by simp)
  · rw [if_neg h0] at h
    exact absurd h (by simp)

theorem get_piece_coords_some (p : Nat) (x y : Int) (r : Nat) (cells : List (Int × Int))
    (h : get_piece_coords p x y r = some cells) : 1 ≤ p ∧ p ≤ 7 ∧ r < 4 := by
  unfold get_piece_coords at h
  dsimp only at h
  split at h
  · rename_i x0 x1 x2 y0 y1 y2 hx0 hx1 hx2 hy0 hy1 hy2
    have b0 := at_index_bounds _ _ _ hx0
    have b2 := at_index_bounds _ _ _ hx2
    have hlen : xs.length = 21 := rfl
    rw [hlen] at b0 b2
    refine ⟨by omega, by omega, ?_⟩
    split at h
    · decide
    · decide
    · decide
    · decide
    · exact absurd h (by simp)
  · exact absurd h (by simp)

theorem legally_placed_kind (t : Tetris) (hp : legally_placed t = true) :
    1 ≤ t.piece ∧ t.piece ≤ 7 ∧ t.rot < 4 := by
  obtain ⟨cells, hc, -⟩ := (legally_placed_iff t).1 hp
  exact get_piece_coords_some _ _ _ _ _ hc

theorem try_move_eq (t : Tetris) (dx dy drot : Int) (h1 : 1 ≤ t.piece) (h7 : t.piece ≤ 7)
    (ha : 0 ≤ (t.rot : Int) + drot + 4) :
    ∃ n c0 c1 c2, at_index rots ((t.piece : Int) - 1) = some n ∧ 1 ≤ n ∧ n ≤ 4 ∧ 4 % n = 0 ∧
      get_piece_coords t.piece ((t.x : Int) + dx) ((t.y : Int) + dy)
          (((t.rot : Int) + drot + 4) % n).toNat
        = some [c0, c1, c2, ((t.x : Int) + dx, (t.y : Int) + dy)] ∧
      (((((t.rot : Int) + drot + 4) % n).toNat : Nat) : Int) = ((t.rot : Int) + drot + 4) % n ∧
      try_move t dx dy drot =
        if List.any [c0, c1, c2, ((t.x : Int) + dx, (t.y : Int) + dy)]
            (fun c => blocked t.board c.1 c.2) then some (false, t)
        else some (true, { t with
          x := to_u8 ((t.x : Int) + dx)
          y := to_u8 ((t.y : Int) + dy)
          rot := (((t.rot : Int) + drot + 4) % n).toNat }) := by
  obtain ⟨n, hn, hn1, hn4, hdiv⟩ := rots_lookup t.piece h1 h7
  obtain ⟨hu, hlt, hcast⟩ := to_u8_tmod _ n ha hn1 hn4
  obtain ⟨c0, c1, c2, hc⟩ := coords_defined t.piece h1 h7 (t.x + dx) (t.y + dy) _ hlt
  refine ⟨n, c0, c1, c2, hn, hn1, hn4, hdiv, hc, hcast, ?_⟩
  simp only [try_move, hn, hu, hc]

theorem any_blocked_eq_not_all (b : List Nat) (cells : List (Int × Int)) :
    cells.any (fun c => blocked b c.1 c.2) = !cells.all (fun c => !blocked b c.1 c.2) := by
  induction cells with
  | nil => rfl
  | cons c cs ih =>
    simp only [List.any_cons, List.all_cons, ih, Bool.not_and, Bool.not_not]

theorem rot_valid_iff (t : Tetris) (n : Int) (hn : at_index rots ((t.piece : Int) - 1) = some n) :
    rot_valid t = true ↔ (t.rot : Int) < n := by
  simp only [rot_valid, hn, decide_eq_true_eq]

theorem placed_pivot (t : Tetris) (hp : legally_placed t = true) : t.x < 10 ∧ t.y < 22 := by
  obtain ⟨h1, h7, hr⟩ := legally_placed_kind t hp
  obtain ⟨cells, hc, hall⟩ := (legally_placed_iff t).1 hp
  obtain ⟨c0, c1, c2, hc2⟩ := coords_defined t.piece h1 h7 t.x t.y t.rot hr
  rw [hc2] at hc
  obtain rfl := Option.some.inj hc
  have := hall ((t.x : Int), (t.y : Int)) (by simp)
  simp only at this
  omega

theorem try_move_success (t : Tetris) (dx dy drot : Int) (h1 : 1 ≤ t.piece) (h7 : t.piece ≤ 7)
    (ha : 0 ≤ (t.rot : Int) + drot + 4) (t1 : Tetris)
    (h : try_move t dx dy drot = some (true, t1)) :
    t1 = { t with x := t1.x, y := t1.y, rot := t1.rot } ∧
    (t1.x : Int) = t.x + dx ∧ (t1.y : Int) = t.y + dy ∧
    legally_placed t1 = true ∧ rot_valid t1 = true := by
  obtain ⟨n, c0, c1, c2, hn, hn1, hn4, hdiv, hc, hcast, htm⟩ := try_move_eq t dx dy drot h1 h7 ha
  rw [htm] at h
  by_cases hb : List.any [c0, c1, c2, ((t.x : Int) + dx, (t.y : Int) + dy)]
      (fun c => blocked t.board c.1 c.2) = true
  · rw [if_pos hb] at h
    exact absurd (Prod.mk.inj (Option.some.inj h)).1 (by decide)
  · rw [if_neg hb] at h
    have ht1 := (Prod.mk.inj (Option.some.inj h)).2
    have hb2 : List.any [c0, c1, c2, ((t.x : Int) + dx, (t.y : Int) + dy)]
        (fun c => blocked t.board c.1 c.2) = false := Bool.eq_false_iff.2 hb
    have hpiv : blocked t.board ((t.x : Int) + dx) ((t.y : Int) + dy) = false := by
      have := List.any_eq_false.1 hb2 ((t.x : Int) + dx, (t.y : Int) + dy) (by simp)
      simpa using this
    obtain ⟨⟨hx0, hx1⟩, ⟨hy0, hy1⟩, -⟩ := (blocked_false_iff _ _ _).1 hpiv
    have ex : ((to_u8 ((t.x : Int) + dx) : Nat) : Int) = (t.x : Int) + dx := by
      unfold to_u8; omega
    have ey : ((to_u8 ((t.y : Int) + dy) : Nat) : Int) = (t.y : Int) + dy := by
      unfold to_u8; omega
    subst ht1
    refine ⟨rfl, ex, ey, ?_, ?_⟩
    · simp only [legally_placed, ex, ey, hc]
      rw [any_blocked_eq_not_all] at hb2
      simpa using hb2
    · simp only [rot_valid, hn, decide_eq_true_eq, hcast]
      exact Int.emod_lt_of_pos _ (by omega)

theorem step_down (t : Tetris) (hp : legally_placed t = true) (hr : rot_valid t = true) :
    try_move t 0 (-1) 0 =
      if 1 ≤ t.y ∧ legally_placed { t with y := t.y - 1 } = true
      then some (true, { t with y := t.y - 1 }) else some (false, t) := by
  obtain ⟨h1, h7, -⟩ := legally_placed_kind t hp
  obtain ⟨hx, hy⟩ := placed_pivot t hp
  obtain ⟨n, c0, c1, c2, hn, hn1, hn4, hdiv, hc, hcast, htm⟩ :=
    try_move_eq t 0 (-1) 0 h1 h7 (by omega)
  have hrn := (rot_valid_iff t n hn).1 hr
  have hrot : (((t.rot : Int) + 0 + 4) % n).toNat = t.rot := by
    have e : ((t.rot : Int) + 0 + 4) % n = (t.rot : Int) := by
      have h4 : (4 : Int) = n * (4 / n) := by
        have := Int.emod_add_ediv 4 n
        omega
      rw [Int.add_zero, h4, Int.add_mul_emod_self_left]
      exact Int.emod_eq_of_lt (by omega) hrn
    rw [e]
    exact Int.toNat_ofNat _
  rw [hrot] at hc htm
  have ux : to_u8 ((t.x : Int) + 0) = t.x := by
    unfold to_u8; omega
  rw [htm]
  by_cases hy1 : 1 ≤ t.y
  · have ey : (t.y : Int) + -1 = ((t.y - 1 : Nat) : Int) := by omega
    have uy : to_u8 ((t.y : Int) + -1) = t.y - 1 := by
      unfold to_u8; omega
    have hlp : legally_placed { t with y := t.y - 1 } =
        !List.any [c0, c1, c2, ((t.x : Int) + 0, (t.y : Int) + -1)]
          (fun c => blocked t.board c.1 c.2) := by
      rw [any_blocked_eq_not_all, Bool.not_not]
      have hc2 : get_piece_coords t.piece (t.x : Int) ((t.y - 1 : Nat) : Int) t.rot
          = some [c0, c1, c2, ((t.x : Int) + 0, (t.y : Int) + -1)] := by
        rw [← ey, ← hc, Int.add_zero]
      simp only [legally_placed, hc2]
    have hself : ({ t with x := t.x, y := t.y - 1, rot := t.rot } : Tetris)
        = { t with y := t.y - 1 } := rfl
    rw [ux, uy, hself, hlp]
    by_cases hb : List.any [c0, c1, c2, ((t.x : Int) + 0, (t.y : Int) + -1)]
        (fun c => blocked t.board c.1 c.2) = true
    · simp only [hb, if_true, Bool.not_true, Bool.false_eq_true, and_false, if_false]
    · simp only [if_false, Bool.not_false, hy1, and_self, if_true,
        Bool.eq_false_iff.2 hb, Bool.false_eq_true]
  · have hb : List.any [c0, c1, c2, ((t.x : Int) + 0, (t.y : Int) + -1)]
        (fun c => blocked t.board c.1 c.2) = true := by
      rw [List.any_eq_true]
      refine ⟨((t.x : Int) + 0, (t.y : Int) + -1), by simp, ?_⟩
      unfold blocked
      have : (t.y : Int) + -1 < 0 := by omega
      simp [this]
    rw [if_pos hb, if_neg (fun h => hy1 h.1)]

/-! ## The hard drop -/

theorem with_y_self (t : Tetris) : ({ t with y := t.y - 0 } : Tetris) = t := by
  cases t
  rfl

theorem get_piece_coords_shift (p : Nat) (x y d : Int) (r : Nat) :
    get_piece_coords p x (y + d) r
      = (get_piece_coords p x y r).map (List.map (fun c => (c.1, c.2 + d))) := by
  by_cases h : 1 ≤ p ∧ p ≤ 7 ∧ r < 4
  · obtain ⟨h1, h7, hr⟩ := h
    interval_cases p <;> interval_cases r <;>
      simp [get_piece_coords, at_index, xs, ys] <;> omega
  · cases hA : get_piece_coords p x (y + d) r with
    | some a => exact absurd (get_piece_coords_some _ _ _ _ _ hA) h
    | none =>
      cases hB : get_piece_coords p x y r with
      | some b => exact absurd (get_piece_coords_some _ _ _ _ _ hB) h
      | none => rfl

theorem drop_loop_spec (y : Nat) :
    ∀ t : Tetris, t.y = y → legally_placed t = true → rot_valid t = true →
      ∃ k, k ≤ t.y ∧
        (∀ j, 1 ≤ j → j ≤ k → legally_placed { t with y := t.y - j } = true) ∧
        (k = t.y ∨ legally_placed { t with y := t.y - (k + 1) } = false) ∧
        ∀ fuel, k < fuel → drop_loop fuel t = some { t with y := t.y - k } := by
  induction y with
  | zero =>
    intro t hy hp hr
    refine ⟨0, Nat.zero_le _, fun j h1 h2 => absurd h1 (by omega), Or.inl hy.symm, ?_⟩
    intro fuel hf
    obtain ⟨f, rfl⟩ : ∃ f, fuel = f + 1 := ⟨fuel - 1, by omega⟩
    have hs := step_down t hp hr
    rw [if_neg (fun h => by omega)] at hs
    simp only [drop_loop, hs, with_y_self]
  | succ y ih =>
    intro t hy hp hr
    have hs := step_down t hp hr
    by_cases hc : 1 ≤ t.y ∧ legally_placed { t with y := t.y - 1 } = true
    · rw [if_pos hc] at hs
      have hr1 : rot_valid { t with y := t.y - 1 } = true := hr
      obtain ⟨k, hk, hall, hmax, hloop⟩ := ih { t with y := t.y - 1 }
        (by show t.y - 1 = y; omega) hc.2 hr1
      have hk2 : k ≤ t.y - 1 := hk
      have e : ∀ m, ({ ({ t with y := t.y - 1 } : Tetris) with y := t.y - 1 - m } : Tetris)
          = { t with y := t.y - (m + 1) } := by
        intro m
        have : t.y - 1 - m = t.y - (m + 1) := by omega
        rw [this]
      refine ⟨k + 1, by omega, ?_, ?_, ?_⟩
      · intro j h1 h2
        by_cases hj : j = 1
        · subst hj
          exact hc.2
        · have := hall (j - 1) (by omega) (by omega)
          have e2 := e (j - 1)
          have e3 : j - 1 + 1 = j := by omega
          rw [e3] at e2
          rw [← e2]
          exact this
      · rcases hmax with h | h
        · left
          have : k = t.y - 1 := h
          omega
        · right
          rw [← e (k + 1)]
          exact h
      · intro fuel hf
        obtain ⟨f, rfl⟩ : ∃ f, fuel = f + 1 := ⟨fuel - 1, by omega⟩
        simp only [drop_loop, hs]
        rw [hloop f (by omega)]
        exact congrArg some (e k)
    · rw [if_neg hc] at hs
      refine ⟨0, Nat.zero_le _, fun j h1 h2 => absurd h1 (by omega), ?_, ?_⟩
      · by_cases h0 : t.y = 0
        · exact Or.inl h0.symm
        · right
          have : ¬ legally_placed { t with y := t.y - 1 } = true := fun h => hc ⟨by omega, h⟩
          exact Bool.eq_false_iff.2 this
      · intro fuel hf
        obtain ⟨f, rfl⟩ : ∃ f, fuel = f + 1 := ⟨fuel - 1, by omega⟩
        simp only [drop_loop, hs, with_y_self]

theorem SDL_AppEvent_space (t : Tetris) :
    SDL_AppEvent t Key.space =
      match drop_loop 256 t with
      | none => none
      | some t1 => (glue t1).map add_period := by
  show drop_block t true false = _
  unfold drop_block
  simp only [if_true]

/-- Claim C11: for every state with a legally placed piece (its kind is then
in 1..7) whose rotation index is valid, at pivot row `y`, there is a number
`k ≤ y`, the largest one such that the piece is legal at every pivot row
`y-1, ..., y-k`, for which the loop of the hard drop returns after `k`
successful steps down (any bound above `k` on the calls of `try_move` is
enough, also the 256 of `SDL_AppEvent`) with the piece at pivot row `y-k` and
unchanged column and rotation; the hard-drop command then invokes `glue` once
on that state, also when `k = 0`, `glue` returns, and the cells it writes are
the cells of the piece translated down by `k` rows. -/
theorem hard_drop (t : Tetris) (hp : legally_placed t = true) (hr : rot_valid t = true) :
    ∃ k, k ≤ t.y ∧
      (∀ j, 1 ≤ j → j ≤ k → legally_placed { t with y := t.y - j } = true) ∧
      (k = t.y ∨ legally_placed { t with y := t.y - (k + 1) } = false) ∧
      (∀ fuel, k < fuel → drop_loop fuel t = some { t with y := t.y - k }) ∧
      SDL_AppEvent t Key.space = (glue { t with y := t.y - k }).map add_period ∧
      (∃ g, glue { t with y := t.y - k } = some g) ∧
      get_piece_coords t.piece t.x ((t.y - k : Nat) : Int) t.rot
        = (get_piece_coords t.piece t.x t.y t.rot).map
            (List.map (fun c => (c.1, c.2 + -(k : Int)))) := by
  obtain ⟨k, hk, hall, hmax, hloop⟩ := drop_loop_spec t.y t rfl hp hr
  have hy := (placed_pivot t hp).2
  have hland : legally_placed { t with y := t.y - k } = true := by
    by_cases h0 : k = 0
    · subst h0
      rw [with_y_self]
      exact hp
    · exact hall k (by omega) (Nat.le_refl _)
  refine ⟨k, hk, hall, hmax, hloop, ?_, ?_, ?_⟩
  · rw [SDL_AppEvent_space, hloop 256 (by omega)]
  · obtain ⟨w, cells, -, -, -, -, hg⟩ := glue_eq { t with y := t.y - k } hland
    exact ⟨_, hg⟩
  · rw [← get_piece_coords_shift]
    have : ((t.y - k : Nat) : Int) = (t.y : Int) + -(k : Int) := by omega
    rw [this]

/-- An instance at `mid_state`: the T piece falls from pivot row 10. -/
theorem hard_drop_witness :
    (legally_placed mid_state = true ∧ rot_valid mid_state = true) ∧
    ∃ k, k ≤ mid_state.y ∧
      (∀ j, 1 ≤ j → j ≤ k → legally_placed { mid_state with y := mid_state.y - j } = true) ∧
      (k = mid_state.y ∨ legally_placed { mid_state with y := mid_state.y - (k + 1) } = false) ∧
      (∀ fuel, k < fuel → drop_loop fuel mid_state = some { mid_state with y := mid_state.y - k }) ∧
      SDL_AppEvent mid_state Key.space
        = (glue { mid_state with y := mid_state.y - k }).map add_period ∧
      (∃ g, glue { mid_state with y := mid_state.y - k } = some g) ∧
      get_piece_coords mid_state.piece mid_state.x ((mid_state.y - k : Nat) : Int) mid_state.rot
        = (get_piece_coords mid_state.piece mid_state.x mid_state.y mid_state.rot).map
            (List.map (fun c => (c.1, c.2 + -(k : Int)))) :=
  ⟨⟨by decide!, by decide!⟩, hard_drop mid_state (by decide!) (by decide!)⟩

/-! ## The invariant of the reachable states -/

theorem board_stores_le (piece : Nat) (h7 : piece ≤ 7) (cells : List (Int × Int)) :
    ∀ b w : List Nat,
      cells.foldlM (fun b c => board_store b (c.1 + c.2 * 10) piece) b = some w →
      (∀ i, b.getD i 0 ≤ 7) → ∀ i, w.getD i 0 ≤ 7 := by
  induction cells with
  | nil =>
    intro b w h hb
    obtain rfl : b = w := Option.some.inj h
    exact hb
  | cons c cs ih =>
    intro b w h hb
    rw [List.foldlM_cons] at h
    unfold board_store at h
    by_cases hidx : 0 ≤ c.1 + c.2 * 10 ∧ c.1 + c.2 * 10 < 220
    · rw [if_pos hidx] at h
      refine ih _ w h ?_
      intro i
      rw [getD_set_zero]
      split
      · exact h7
      · exact hb i
    · rw [if_neg hidx] at h
      exact absurd h (by simp)

theorem write_piece_le (t : Tetris) (w : List Nat) (hw : write_piece t = some w)
    (h7 : t.piece ≤ 7) (hb : ∀ i, t.board.getD i 0 ≤ 7) : ∀ i, w.getD i 0 ≤ 7 := by
  unfold write_piece at hw
  cases hc : get_piece_coords t.piece t.x t.y t.rot with
  | none => rw [hc] at hw; exact absurd hw (by simp)
  | some cells =>
    rw [hc] at hw
    exact board_stores_le t.piece h7 cells t.board w hw hb

theorem sweep_row_le (b : List Nat) (y c : Nat) (hb : b.length = 220) (hy : y < 22)
    (hc : c ≤ y) (h7 : ∀ i, b.getD i 0 ≤ 7) : ∀ i, (sweep_row (b, c) y).1.getD i 0 ≤ 7 := by
  obtain ⟨-, hget, -⟩ := sweep_cells_spec b y c hb hy hc 10 (Nat.le_refl _)
  intro i
  rw [sweep_row_eq]
  dsimp only
  rw [hget]
  split
  · exact h7 _
  · split
    · exact Nat.zero_le _
    · exact h7 _

theorem sweep_rows_le (B : List Nat) (hB : B.length = 220) (h7 : ∀ i, B.getD i 0 ≤ 7)
    (y : Nat) (hy : y ≤ 22) : ∀ i, ((List.range y).foldl sweep_row (B, 0)).1.getD i 0 ≤ 7 := by
  induction y with
  | zero => exact h7
  | succ y ih =>
    have ihy := ih (by omega)
    obtain ⟨hlen, -, hsum, -⟩ := sweep_rows_spec B hB y (by omega)
    rw [List.range_succ, List.foldl_append, List.foldl_cons, List.foldl_nil]
    generalize (List.range y).foldl sweep_row (B, 0) = s at hlen hsum ihy
    obtain ⟨bd, c⟩ := s
    exact sweep_row_le bd y c hlen (by omega) (by simp only at hsum; omega) ihy

theorem sweep_le (B : List Nat) (hB : B.length = 220) (h7 : ∀ i, B.getD i 0 ≤ 7) :
    (sweep B).1.length = 220 ∧ ∀ i, (sweep B).1.getD i 0 ≤ 7 :=
  ⟨(sweep_rows_spec B hB 22 (Nat.le_refl _)).1, sweep_rows_le B hB h7 22 (Nat.le_refl _)⟩

theorem add_period_invariant (t : Tetris) (h : invariant t) : invariant (add_period t) := h

theorem glue_invariant (t : Tetris) (h : invariant t) (hp : t.piece ≠ 0) :
    ∃ g, glue t = some g ∧ invariant g := by
  obtain ⟨hlen, h7, hpl⟩ := h
  obtain ⟨hplaced, -⟩ := hpl hp
  obtain ⟨k1, k7, -⟩ := legally_placed_kind t hplaced
  obtain ⟨w, cells, hw, hwl, hc, hrange, hg⟩ := glue_eq t hplaced
  have hw7 := write_piece_le t w hw k7 h7
  obtain ⟨hsl, hs7⟩ := sweep_le w (hwl.trans hlen) hw7
  refine ⟨_, hg, ?_⟩
  generalize sweep w = sw at hg hsl hs7
  refine ⟨hsl, hs7, ?_⟩
  intro hne
  by_cases hb : cells.any (fun c => blocked sw.1 c.1 c.2) = true
  · exact absurd (by simp only [hb, if_true]) hne
  · have hb2 : cells.any (fun c => blocked sw.1 c.1 c.2) = false := Bool.eq_false_iff.2 hb
    obtain ⟨n, hn, hn1, -, -⟩ := rots_lookup (t.piece % 7 + 1) (by omega) (by omega)
    have e5 : ((5 : Nat) : Int) = 5 := rfl
    have e20 : ((20 : Nat) : Int) = 20 := rfl
    rw [any_blocked_eq_not_all, Bool.not_eq_false'] at hb2
    constructor
    · unfold legally_placed
      dsimp only
      rw [if_neg hb, e5, e20, hc]
      exact hb2
    · unfold rot_valid
      dsimp only
      rw [if_neg hb, hn]
      exact decide_eq_true (by omega)

theorem try_move_invariant (t : Tetris) (dx dy drot : Int) (h : invariant t) (hp : t.piece ≠ 0)
    (ha : 0 ≤ (t.rot : Int) + drot + 4) :
    (try_move t dx dy drot = some (false, t)) ∨
      ∃ s, try_move t dx dy drot = some (true, s) ∧ invariant s ∧ s.piece = t.piece := by
  obtain ⟨hlen, h7, hpl⟩ := h
  obtain ⟨hplaced, -⟩ := hpl hp
  obtain ⟨k1, k7, -⟩ := legally_placed_kind t hplaced
  obtain ⟨r, hr⟩ := try_move_defined t dx dy drot k1 k7 ha
  rcases try_move_cases t dx dy drot r hr with rfl | ⟨x, y, rot, rfl⟩
  · exact Or.inl hr
  · right
    obtain ⟨-, -, -, hpl2, hrv2⟩ := try_move_success t dx dy drot k1 k7 ha _ hr
    exact ⟨_, hr, ⟨hlen, h7, fun _ => ⟨hpl2, hrv2⟩⟩, rfl⟩

theorem rotate_command_invariant (t : Tetris) (h : invariant t) (hp : t.piece ≠ 0) :
    ∃ s, rotate_command t = some s ∧ invariant s ∧ s.piece = t.piece := by
  have ha : (0 : Int) ≤ (t.rot : Int) + 1 + 4 := by omega
  obtain ⟨-, k7, -⟩ := legally_placed_kind t ((h.2.2 hp).1)
  have h8 : (t.piece == 8) = false := by
    rw [beq_eq_false_iff_ne]; omega
  have key := fun dx dy : Int => try_move_invariant t dx dy 1 h hp ha
  unfold rotate_command
  simp only [h8, Bool.and_false, Bool.false_eq_true, if_false]
  rcases key 0 0 with e | ⟨s, e, hs⟩
  · simp only [e, or_try_move]
    rcases key (-1) 0 with e | ⟨s, e, hs⟩
    · simp only [e, or_try_move]
      rcases key 1 0 with e | ⟨s, e, hs⟩
      · simp only [e, or_try_move]
        rcases key 0 (-1) with e | ⟨s, e, hs⟩
        · simp only [e, or_try_move]
          rcases key 0 1 with e | ⟨s, e, hs⟩
          · exact ⟨t, by simp only [e, Option.map], h, rfl⟩
          · exact ⟨s, by simp only [e, Option.map], hs⟩
        · exact ⟨s, by simp only [e, or_try_move, Option.map], hs⟩
      · exact ⟨s, by simp only [e, or_try_move, Option.map], hs⟩
    · exact ⟨s, by simp only [e, or_try_move, Option.map], hs⟩
  · exact ⟨s, by simp only [e, or_try_move, Option.map], hs⟩

theorem drop_block_invariant (t : Tetris) (h : invariant t) (hp : t.piece ≠ 0)
    (drop down : Bool) : ∃ s, drop_block t drop down = some s ∧ invariant s := by
  obtain ⟨hplaced, hrv⟩ := h.2.2 hp
  have hy := (placed_pivot t hplaced).2
  cases drop with
  | true =>
    obtain ⟨k, hk, hall, -, hloop⟩ := drop_loop_spec t.y t rfl hplaced hrv
    have hland : legally_placed { t with y := t.y - k } = true := by
      by_cases h0 : k = 0
      · subst h0
        rw [with_y_self]
        exact hplaced
      · exact hall k (by omega) (Nat.le_refl _)
    have hinv : invariant { t with y := t.y - k } := ⟨h.1, h.2.1, fun _ => ⟨hland, hrv⟩⟩
    obtain ⟨g, hg, hgi⟩ := glue_invariant _ hinv hp
    refine ⟨add_period g, ?_, add_period_invariant g hgi⟩
    simp only [drop_block, if_true, hloop 256 (by omega), hg, Option.map]
  | false =>
    cases down with
    | false => exact ⟨add_period t, rfl, add_period_invariant t h⟩
    | true =>
      rcases try_move_invariant t 0 (-1) 0 h hp (by omega) with e | ⟨s, e, hs, -⟩
      · obtain ⟨g, hg, hgi⟩ := glue_invariant t h hp
        refine ⟨add_period g, ?_, add_period_invariant g hgi⟩
        simp only [drop_block, Bool.false_eq_true, if_false, if_true, e, hg, Option.map]
      · refine ⟨add_period s, ?_, add_period_invariant s hs⟩
        simp only [drop_block, Bool.false_eq_true, if_false, if_true, e]

theorem SDL_AppEvent_invariant (t : Tetris) (h : invariant t) (hp : t.piece ≠ 0) (k : Key) :
    ∃ s, SDL_AppEvent t k = some s ∧ invariant s := by
  cases k with
  | up =>
    obtain ⟨s, hs, hi, -⟩ := rotate_command_invariant t h hp
    refine ⟨s, ?_, hi⟩
    show (match rotate_command t with
      | none => none
      | some t3 => some t3) = some s
    rw [hs]
  | down => exact drop_block_invariant t h hp false true
  | left =>
    rcases try_move_invariant t (-1) 0 0 h hp (by omega) with e | ⟨s, e, hs, -⟩
    · refine ⟨t, ?_, h⟩
      show (match (try_move t (-1) 0 0).map Prod.snd with
        | none => none
        | some t1 => some t1) = some t
      rw [e]
      rfl
    · refine ⟨s, ?_, hs⟩
      show (match (try_move t (-1) 0 0).map Prod.snd with
        | none => none
        | some t1 => some t1) = some s
      rw [e]
      rfl
  | right =>
    rcases try_move_invariant t 1 0 0 h hp (by omega) with e | ⟨s, e, hs, -⟩
    · refine ⟨t, ?_, h⟩
      show (match (try_move t 1 0 0).map Prod.snd with
        | none => none
        | some t2 => some t2) = some t
      rw [e]
      rfl
    · refine ⟨s, ?_, hs⟩
      show (match (try_move t 1 0 0).map Prod.snd with
        | none => none
        | some t2 => some t2) = some s
      rw [e]
      rfl
  | space => exact drop_block_invariant t h hp true false
  | other => exact ⟨t, rfl, h⟩

theorem reset_state_invariant : invariant reset_state := by
  refine ⟨by decide!, ?_, fun _ => ⟨by decide!, by decide⟩⟩
  intro i
  show (List.replicate 220 0).getD i 0 ≤ 7
  rw [List.getD_eq_getElem?_getD, List.getElem?_replicate]
  split <;> simp

theorem SDL_AppIterate_invariant (t : Tetris) (h : invariant t) (now : Nat) :
    ∃ s, SDL_AppIterate t now = some s ∧ invariant s := by
  have key : ∀ u : Tetris, invariant u → u.piece ≠ 0 →
      ∃ s, (if u.drop_timer > (now + 2 ^ 64 - u.prev_ns) % 2 ^ 64 then
          some { u with
            prev_ns := now
            drop_timer := u.drop_timer - (now + 2 ^ 64 - u.prev_ns) % 2 ^ 64 }
        else
          match try_move { u with prev_ns := now } 0 (-1) 0 with
          | none => none
          | some (true, t1) => some (add_period t1)
          | some (false, t1) => (glue t1).map add_period) = some s ∧ invariant s := by
    intro u hu hup
    by_cases hd : u.drop_timer > (now + 2 ^ 64 - u.prev_ns) % 2 ^ 64
    · rw [if_pos hd]
      exact ⟨_, rfl, hu⟩
    · rw [if_neg hd]
      have hu2 : invariant { u with prev_ns := now } := hu
      rcases try_move_invariant { u with prev_ns := now } 0 (-1) 0 hu2 hup
        (by show (0 : Int) ≤ (u.rot : Int) + 0 + 4; omega) with e | ⟨s, e, hs, -⟩
      · obtain ⟨g, hg, hgi⟩ := glue_invariant _ hu2 hup
        refine ⟨add_period g, ?_, add_period_invariant g hgi⟩
        simp only [e, hg, Option.map]
      · refine ⟨add_period s, ?_, add_period_invariant s hs⟩
        simp only [e]
  by_cases hp : t.piece = 0
  · have h1 : reset_state.piece ≠ 0 := by decide
    obtain ⟨s, hs, hi⟩ := key reset_state reset_state_invariant h1
    refine ⟨s, ?_, hi⟩
    simp only [SDL_AppIterate, hp, if_true]
    exact hs
  · obtain ⟨s, hs, hi⟩ := key t h hp
    refine ⟨s, ?_, hi⟩
    simp only [SDL_AppIterate, hp, if_false]
    exact hs

theorem reachable_invariant_holds (t : Tetris) (h : Reachable t) : invariant t := by
  induction h with
  | reset => exact reset_state_invariant
  | tick t t1 now _ hstep ih =>
    obtain ⟨s, hs, hi⟩ := SDL_AppIterate_invariant t ih now
    rw [hs] at hstep
    obtain rfl := Option.some.inj hstep
    exact hi
  | input t t1 k _ hp hstep ih =>
    obtain ⟨s, hs, hi⟩ := SDL_AppEvent_invariant t ih hp k
    rw [hs] at hstep
    obtain rfl := Option.some.inj hstep
    exact hi

/-- Claim C12: in every state reachable from `reset_state` by frames and by
key-down events issued while an active piece exists, the board has 220 cells
that all hold a value in 0..7, and whenever a piece is active its four cells
have their column in `[0,10)`, their row in `[0,22)` and lie on empty board
cells; so the four stores of `glue` are inside the board (`write_piece` and
`glue` return), the row copies of its loop go to a row index `y - cleared`
that is not negative, and neither a frame nor a key-down event issued while
a piece is active reaches an access outside an array. -/
theorem reachable_board_and_piece (t : Tetris) (h : Reachable t) :
    t.board.length = 220 ∧ (∀ v ∈ t.board, v ≤ 7) ∧
    (t.piece ≠ 0 →
      ∃ cells, get_piece_coords t.piece t.x t.y t.rot = some cells ∧
        ∀ c ∈ cells, (0 ≤ c.1 ∧ c.1 < 10) ∧ (0 ≤ c.2 ∧ c.2 < 22) ∧
          t.board.getD (c.1 + c.2 * 10).toNat 0 = 0) ∧
    (t.piece ≠ 0 →
      ∃ w g, write_piece t = some w ∧ glue t = some g ∧
        ∀ y, y ≤ 22 → ((List.range y).foldl sweep_row (w, 0)).2 ≤ y) ∧
    (∀ now, ∃ s, SDL_AppIterate t now = some s) ∧
    (t.piece ≠ 0 → ∀ k, ∃ s, SDL_AppEvent t k = some s) := by
  have hi := reachable_invariant_holds t h
  refine ⟨hi.1, ?_, ?_, ?_, ?_, ?_⟩
  · intro v hv
    obtain ⟨i, hlt, rfl⟩ := List.mem_iff_getElem.1 hv
    have := hi.2.1 i
    rw [List.getD_eq_getElem _ _ hlt] at this
    exact this
  · intro hp
    exact (legally_placed_iff t).1 (hi.2.2 hp).1
  · intro hp
    obtain ⟨w, hw, hwl⟩ := write_piece_defined t (hi.2.2 hp).1
    obtain ⟨g, hg, -⟩ := glue_invariant t hi hp
    exact ⟨w, g, hw, hg, fun y hy => sweep_cleared_le w (hwl.trans hi.1) y hy⟩
  · intro now
    obtain ⟨s, hs, -⟩ := SDL_AppIterate_invariant t hi now
    exact ⟨s, hs⟩
  · intro hp k
    obtain ⟨s, hs, -⟩ := SDL_AppEvent_invariant t hi hp k
    exact ⟨s, hs⟩

/-- An instance at `reset_state`, the first reachable state. -/
theorem reachable_board_and_piece_witness :
    Reachable reset_state ∧
    (reset_state.board.length = 220 ∧ (∀ v ∈ reset_state.board, v ≤ 7) ∧
    (reset_state.piece ≠ 0 →
      ∃ cells, get_piece_coords reset_state.piece reset_state.x reset_state.y reset_state.rot
          = some cells ∧
        ∀ c ∈ cells, (0 ≤ c.1 ∧ c.1 < 10) ∧ (0 ≤ c.2 ∧ c.2 < 22) ∧
          reset_state.board.getD (c.1 + c.2 * 10).toNat 0 = 0) ∧
    (reset_state.piece ≠ 0 →
      ∃ w g, write_piece reset_state = some w ∧ glue reset_state = some g ∧
        ∀ y, y ≤ 22 → ((List.range y).foldl sweep_row (w, 0)).2 ≤ y) ∧
    (∀ now, ∃ s, SDL_AppIterate reset_state now = some s) ∧
    (reset_state.piece ≠ 0 → ∀ k, ∃ s, SDL_AppEvent reset_state k = some s)) :=
  ⟨Reachable.reset, reachable_board_and_piece reset_state Reachable.reset⟩

/-! ## A game that ends: the sentinel kind 0 and the table lookups -/

theorem board_ext (a b : List Nat) (ha : a.length = 220) (hb : b.length = 220)
    (h : ∀ j, j < 22 → board_row a j = board_row b j) : a = b := by
  apply List.ext_getElem (ha.trans hb.symm)
  intro i h1 h2
  have hrow := h (i / 10) (by omega)
  unfold board_row at hrow
  have hx := List.map_inj_left.1 hrow (i % 10) (List.mem_range.2 (by omega))
  have e : i % 10 + i / 10 * 10 = i := by omega
  simp only [e] at hx
  rw [List.getD_eq_getElem _ _ h1, List.getD_eq_getElem _ _ h2] at hx
  exact hx

theorem sweep_no_full_rows (B : List Nat) (hB : B.length = 220) (h0 : full_rows B = 0) :
    sweep B = (B, 0) := by
  obtain ⟨hlen, -, hsum, h3, -, -⟩ := sweep_rows_spec B hB 22 (Nat.le_refl _)
  have hC := sweep_cleared B hB
  rw [h0] at hC
  unfold sweep at hC ⊢
  generalize (List.range 22).foldl sweep_row (B, 0) = s at hlen hsum h3 hC
  obtain ⟨bd, c⟩ := s
  simp only at hlen hsum h3 hC
  subst hC
  have hall : (List.range 22).filter (fun j => !row_full B j) = List.range 22 := by
    have hl : ((List.range 22).filter (fun j => !row_full B j)).length
        = (List.range 22).length := by
      rw [List.length_range]; omega
    exact List.filter_eq_self.2 (List.filter_length_eq_length.1 hl)
  rw [hall] at h3
  have hrows := List.map_inj_left.1 h3
  have : bd = B := board_ext bd B hlen hB (fun j hj => hrows j (List.mem_range.2 hj))
  rw [this]

theorem glue_no_clear (t : Tetris) (w : List Nat) (hw : write_piece t = some w)
    (hlen : w.length = 220) (h0 : full_rows w = 0) :
    glue t =
      match try_move
        { t with
          board := w
          piece := t.piece % 7 + 1
          x := 5
          y := 20
          rot := 0
          score := (t.score + ((t.lines / 10 + 1) <<< 0) % 2 ^ 32) % 2 ^ 32
          lines := (t.lines + 0) % 2 ^ 32 } 0 0 0 with
      | none => none
      | some (true, t2) => some t2
      | some (false, t2) => some { t2 with piece := 0 } :=
  glue_unfold t w (w, 0) hw (sweep_no_full_rows w hlen h0)

theorem hard_drop_no_clear (t t1 t2 : Tetris) (w : List Nat)
    (h1 : drop_loop 256 t = some t1) (h2 : write_piece t1 = some w) (h3 : w.length = 220)
    (h4 : full_rows w = 0)
    (h5 : (match try_move
        { t1 with
          board := w
          piece := t1.piece % 7 + 1
          x := 5
          y := 20
          rot := 0
          score := (t1.score + ((t1.lines / 10 + 1) <<< 0) % 2 ^ 32) % 2 ^ 32
          lines := (t1.lines + 0) % 2 ^ 32 } 0 0 0 with
      | none => none
      | some (true, t2) => some t2
      | some (false, t2) => some { t2 with piece := 0 }).map add_period = some t2) :
    SDL_AppEvent t Key.space = some t2 := by
  rw [SDL_AppEvent_space, h1]
  simp only
  rw [glue_no_clear t1 w h2 h3 h4, h5]

theorem tick_lock_no_clear (t t2 : Tetris) (now : Nat) (w : List Nat) (hp : t.piece ≠ 0)
    (hd : ¬ t.drop_timer > (now + 2 ^ 64 - t.prev_ns) % 2 ^ 64)
    (h1 : try_move { t with prev_ns := now } 0 (-1) 0 = some (false, { t with prev_ns := now }))
    (h2 : write_piece { t with prev_ns := now } = some w) (h3 : w.length = 220)
    (h4 : full_rows w = 0)
    (h5 : (match try_move
        { t with
          prev_ns := now
          board := w
          piece := t.piece % 7 + 1
          x := 5
          y := 20
          rot := 0
          score := (t.score + ((t.lines / 10 + 1) <<< 0) % 2 ^ 32) % 2 ^ 32
          lines := (t.lines + 0) % 2 ^ 32 } 0 0 0 with
      | none => none
      | some (true, t2) => some t2
      | some (false, t2) => some { t2 with piece := 0 }).map add_period = some t2) :
    SDL_AppIterate t now = some t2 := by
  simp only [SDL_AppIterate, hp, if_false, hd, h1]
  rw [glue_no_clear _ w h2 h3 h4]
  exact h5

theorem stack_step_1 :
    SDL_AppEvent reset_state Key.space = some (stack_state 1 2 2) :=
  hard_drop_no_clear _ { reset_state with y := 1 } _ (stack_board 2)
    (by decide!) (by decide!) (by decide!) (by decide!) (by decide!)

theorem stack_step_2 :
    SDL_AppEvent (stack_state 1 2 2) Key.space = some (stack_state 2 4 3) :=
  hard_drop_no_clear _ { stack_state 1 2 2 with y := 3 } _ (stack_board 4)
    (by decide!) (by decide!) (by decide!) (by decide!) (by decide!)

theorem stack_step_3 :
    SDL_AppEvent (stack_state 2 4 3) Key.space = some (stack_state 3 6 4) :=
  hard_drop_no_clear _ { stack_state 2 4 3 with y := 5 } _ (stack_board 6)
    (by decide!) (by decide!) (by decide!) (by decide!) (by decide!)

theorem stack_step_4 :
    SDL_AppEvent (stack_state 3 6 4) Key.space = some (stack_state 4 8 5) :=
  hard_drop_no_clear _ { stack_state 3 6 4 with y := 7 } _ (stack_board 8)
    (by decide!) (by decide!) (by decide!) (by decide!) (by decide!)

theorem stack_step_5 :
    SDL_AppEvent (stack_state 4 8 5) Key.space = some (stack_state 5 10 6) :=
  hard_drop_no_clear _ { stack_state 4 8 5 with y := 9 } _ (stack_board 10)
    (by decide!) (by decide!) (by decide!) (by decide!) (by decide!)

theorem stack_step_6 :
    SDL_AppEvent (stack_state 5 10 6) Key.space = some (stack_state 6 12 7) :=
  hard_drop_no_clear _ { stack_state 5 10 6 with y := 11 } _ (stack_board 12)
    (by decide!) (by decide!) (by decide!) (by decide!) (by decide!)

theorem stack_step_7 :
    SDL_AppEvent (stack_state 6 12 7) Key.space = some (stack_state 7 13 1) :=
  hard_drop_no_clear _ { stack_state 6 12 7 with y := 12 } _ (stack_board 13)
    (by decide!) (by decide!) (by decide!) (by decide!) (by decide!)

theorem stack_step_8 :
    SDL_AppEvent (stack_state 7 13 1) Key.space = some (stack_state 8 15 2) :=
  hard_drop_no_clear _ { stack_state 7 13 1 with y := 14 } _ (stack_board 15)
    (by decide!) (by decide!) (by decide!) (by decide!) (by decide!)

theorem stack_step_9 :
    SDL_AppEvent (stack_state 8 15 2) Key.space = some (stack_state 9 17 3) :=
  hard_drop_no_clear _ { stack_state 8 15 2 with y := 16 } _ (stack_board 17)
    (by decide!) (by decide!) (by decide!) (by decide!) (by decide!)

theorem stack_step_10 :
    SDL_AppEvent (stack_state 9 17 3) Key.space = some (stack_state 10 19 4) :=
  hard_drop_no_clear _ { stack_state 9 17 3 with y := 18 } _ (stack_board 19)
    (by decide!) (by decide!) (by decide!) (by decide!) (by decide!)

theorem stack_step_11 :
    SDL_AppEvent (stack_state 10 19 4) Key.space = some (stack_state 11 21 0) :=
  hard_drop_no_clear _ { stack_state 10 19 4 with y := 20 } _ (stack_board 21)
    (by decide!) (by decide!) (by decide!) (by decide!) (by decide!)

theorem stack_tick :
    SDL_AppIterate (stack_state 10 19 4) 10000000000
      = some { stack_state 11 21 0 with prev_ns := 10000000000 } :=
  tick_lock_no_clear _ _ _ (stack_board 21)
    (by decide!) (by decide!) (by decide!) (by decide!) (by decide!) (by decide!) (by decide!)

/-- One step of a run: when the first command yields `t1`, the run continues from `t1`. -/
theorem run_cons (t t1 : Tetris) (c : Command) (cs : List Command) (h : step t c = some t1) :
    run t (c :: cs) = run t1 cs := by
  simp only [run, h]

/-- A run that starts with a space key-down continues from the result of that event. -/
theorem run_space (t t1 : Tetris) (cs : List Command)
    (h : SDL_AppEvent t Key.space = some t1) :
    run t (Command.key Key.space :: cs) = run t1 cs :=
  run_cons t t1 (Command.key Key.space) cs h

/-- Ten hard drops from `reset_state` stack ten pieces in the middle columns. -/
theorem run_ten_drops :
    run reset_state (List.replicate 10 (Command.key Key.space)) = some (stack_state 10 19 4) :=
  (run_space _ _ _ stack_step_1).trans <| (run_space _ _ _ stack_step_2).trans <|
  (run_space _ _ _ stack_step_3).trans <| (run_space _ _ _ stack_step_4).trans <|
  (run_space _ _ _ stack_step_5).trans <| (run_space _ _ _ stack_step_6).trans <|
  (run_space _ _ _ stack_step_7).trans <| (run_space _ _ _ stack_step_8).trans <|
  (run_space _ _ _ stack_step_9).trans <| (run_space _ _ _ stack_step_10).trans rfl

/-- A run over `cs ++ ds` is the run over `cs` followed by the run over `ds`. -/
theorem run_append (cs : List Command) :
    ∀ (t t1 : Tetris) (ds : List Command), run t cs = some t1 → run t (cs ++ ds) = run t1 ds := by
  induction cs with
  | nil =>
    intro t t1 ds h
    obtain rfl : t = t1 := Option.some.inj h
    rfl
  | cons c cs ih =>
    intro t t1 ds h
    cases hs : step t c with
    | none => simp only [run, hs] at h; exact absurd h (by simp)
    | some t2 =>
      rw [run_cons t t2 c cs hs] at h
      rw [List.cons_append, run_cons t t2 c (cs ++ ds) hs]
      exact ih t2 t1 ds h

/-- Eleven hard drops from `reset_state` end the game: the spawn position is blocked. -/
theorem run_eleven_drops :
    run reset_state (List.replicate 11 (Command.key Key.space)) = some (stack_state 11 21 0) :=
  (run_space _ _ _ stack_step_1).trans <| (run_space _ _ _ stack_step_2).trans <|
  (run_space _ _ _ stack_step_3).trans <| (run_space _ _ _ stack_step_4).trans <|
  (run_space _ _ _ stack_step_5).trans <| (run_space _ _ _ stack_step_6).trans <|
  (run_space _ _ _ stack_step_7).trans <| (run_space _ _ _ stack_step_8).trans <|
  (run_space _ _ _ stack_step_9).trans <| (run_space _ _ _ stack_step_10).trans <|
  (run_space _ _ _ stack_step_11).trans rfl

/-- Claim C15 on two runs from `reset_state`. Eleven hard drops end the game:
the kind is the sentinel 0, and a further key-down event (here the left key)
calls `try_move`, whose lookup `rots[piece - 1]` is then `rots[-1]`, outside
the table. Ten hard drops and a frame at clock reading 10000000000 end the
game inside `SDL_AppIterate`, whose `Render` then calls `get_piece_coords`
with kind 0, where the offset lookups start at index -3. -/
theorem sentinel_reaches_lookups :
    run reset_state (List.replicate 11 (Command.key Key.space)) = some (stack_state 11 21 0) ∧
    (stack_state 11 21 0).piece = 0 ∧
    at_index rots (((stack_state 11 21 0).piece : Int) - 1) = none ∧
    try_move (stack_state 11 21 0) (-1) 0 0 = none ∧
    run reset_state (List.replicate 11 (Command.key Key.space) ++ [Command.key Key.left])
      = none ∧
    run reset_state (List.replicate 10 (Command.key Key.space) ++ [Command.tick 10000000000])
      = some { stack_state 11 21 0 with prev_ns := 10000000000 } ∧
    at_index xs ((((stack_state 11 21 0).piece : Int) - 1) * 3 + 0) = none ∧
    Render { stack_state 11 21 0 with prev_ns := 10000000000 } = none := by
  have hleft : SDL_AppEvent (stack_state 11 21 0) Key.left = none := by decide!
  refine ⟨run_eleven_drops, rfl, rfl, by decide!, ?_, ?_, rfl, by decide!⟩
  · rw [run_append _ _ _ _ run_eleven_drops]
    simp only [run, step, hleft]
  · rw [run_append _ _ _ _ run_ten_drops]
    simp only [run, step, stack_tick]

end SdlTetris
